import Mathlib

/-!
Verification development for the neos-full-statbox backup reader.

The definitions below are a shallow embedding of the Rust sources
(src/store/backup.rs, src/store/de.rs).  Strings are modelled as lists of
characters (Rust String ordering is byte-lexicographic on UTF-8, which
coincides with code-point lexicographic order, so List Char with the
code-point order is faithful).  Fallible code is modelled with Except,
and a Rust panic is modelled as an explicit outcome constructor.
-/

set_option maxHeartbeats 1000000

abbrev Str := List Char

/-! ## Rust str::split

Rust pattern splitting finds leftmost non-overlapping matches of the
pattern and yields the pieces between them; it always yields at least one
(possibly empty) piece.  The recursion consumes at least one character per
step, so a fuel argument equal to the length of the input makes the
function structurally recursive (the fuel-0 branch is unreachable when the
fuel is at least the length of the input).
-/

def splitF (sep : Str) (fuel : Nat) (s : Str) : List Str :=
  match fuel, s with
  | 0, s => [s]
  | _ + 1, [] => [[]]
  | f + 1, c :: rest =>
    if sep.isPrefixOf (c :: rest) ∧ sep ≠ [] then
      [] :: splitF sep f ((c :: rest).drop sep.length)
    else
      match splitF sep f rest with
      | [] => [[c]]
      | x :: xs => (c :: x) :: xs

/-- Model of Rust str::split collected into a list (the Rust iterator is
lazy; the parser only ever looks at the first two elements, which agree
with the first two elements of the fully collected list). -/
def rsplit (sep : Str) (s : Str) : List Str :=
  splitF sep s.length s

/-- Does sep occur (as a contiguous subsequence) somewhere in s? -/
def containsSeq (sep : Str) : Str → Bool
  | [] => sep.isPrefixOf []
  | s@(_ :: rest) => sep.isPrefixOf s || containsSeq sep rest

theorem splitF_fuel_stable (sep : Str) :
    ∀ f1 : Nat, ∀ s : Str, ∀ f2 : Nat, s.length ≤ f1 → s.length ≤ f2 →
      splitF sep f1 s = splitF sep f2 s := by
  intro f1
  induction f1 with
  | zero =>
    intro s f2 h1 _
    have hs : s = [] := List.eq_nil_of_length_eq_zero (Nat.le_zero.mp h1)
    subst hs
    cases f2 <;> rfl
  | succ f ih =>
    intro s f2 h1 h2
    cases s with
    | nil => cases f2 <;> rfl
    | cons c rest =>
      cases f2 with
      | zero => simp at h2
      | succ g =>
        show splitF sep (f + 1) (c :: rest) = splitF sep (g + 1) (c :: rest)
        rw [splitF, splitF]
        by_cases hp : sep.isPrefixOf (c :: rest) ∧ sep ≠ []
        · rw [if_pos hp, if_pos hp]
          have hlen : ((c :: rest).drop sep.length).length ≤ rest.length := by
            cases hsep : sep with
            | nil => exact absurd hsep hp.2
            | cons a as =>
              simp only [List.length_drop, List.length_cons]
              omega
          have h1' : ((c :: rest).drop sep.length).length ≤ f := by
            have := Nat.succ_le_succ_iff.mp h1
            omega
          have h2' : ((c :: rest).drop sep.length).length ≤ g := by
            have := Nat.succ_le_succ_iff.mp h2
            omega
          rw [ih _ f h1' h1', ih _ g h1' h2']
        · rw [if_neg hp, if_neg hp]
          have h1' : rest.length ≤ f := Nat.succ_le_succ_iff.mp h1
          have h2' : rest.length ≤ g := Nat.succ_le_succ_iff.mp h2
          rw [ih rest f h1' h1', ih rest g h1' h2']

theorem splitF_eq_rsplit (sep : Str) (s : Str) (fuel : Nat) (h : s.length ≤ fuel) :
    splitF sep fuel s = rsplit sep s :=
  splitF_fuel_stable sep fuel s s.length h (Nat.le_refl _)

theorem containsSeq_false_splitF (sep : Str) :
    ∀ s : Str, containsSeq sep s = false → ∀ fuel, splitF sep fuel s = [s] := by
  intro s
  induction s with
  | nil =>
    intro _ fuel
    cases fuel <;> rfl
  | cons c rest ih =>
    intro h fuel
    rw [containsSeq] at h
    simp only [Bool.or_eq_false_iff] at h
    cases fuel with
    | zero => rfl
    | succ f =>
      rw [splitF]
      have hp : ¬(sep.isPrefixOf (c :: rest) ∧ sep ≠ []) := by
        intro hc
        rw [hc.1] at h
        exact absurd h.1 (by simp)
      rw [if_neg hp, ih h.2 f]

theorem containsSeq_false_rsplit (sep : Str) (s : Str) (h : containsSeq sep s = false) :
    rsplit sep s = [s] :=
  containsSeq_false_splitF sep s h s.length

theorem isPrefixOf_mem (sep t : Str) (c : Char) (hc : c ∈ sep)
    (hp : sep.isPrefixOf t = true) : c ∈ t := by
  have := List.isPrefixOf_iff_prefix.mp hp
  exact this.subset hc

theorem mem_of_containsSeq (sep : Str) (c : Char) (hc : c ∈ sep) :
    ∀ s : Str, containsSeq sep s = true → c ∈ s := by
  intro s
  induction s with
  | nil =>
    intro h
    rw [containsSeq] at h
    exact absurd (isPrefixOf_mem sep [] c hc h) (List.not_mem_nil c)
  | cons d rest ih =>
    intro h
    rw [containsSeq] at h
    rcases Bool.or_eq_true_iff.mp h with h | h
    · exact isPrefixOf_mem _ _ _ hc h
    · exact List.mem_cons_of_mem d (ih h)

theorem count_le_of_containsSeq (sep : Str) (c : Char) :
    ∀ s : Str, containsSeq sep s = true → sep.count c ≤ s.count c := by
  intro s
  induction s with
  | nil =>
    intro h
    rw [containsSeq] at h
    have : sep = [] := by
      cases sep with
      | nil => rfl
      | cons a as => simp [List.isPrefixOf] at h
    simp [this]
  | cons d rest ih =>
    intro h
    rw [containsSeq] at h
    rcases Bool.or_eq_true_iff.mp h with h | h
    · exact (List.isPrefixOf_iff_prefix.mp h).sublist.count_le c
    · calc sep.count c ≤ rest.count c := ih h
        _ ≤ (d :: rest).count c := by
          rw [List.count_cons]
          omega

/-- A split at an explicit first occurrence of the separator: if the head
character of the separator does not occur in the part before the
separator, the first piece is exactly that part. -/
theorem splitF_boundary (sep : Str) (c0 : Char) (sep2 : Str) (hsep : sep = c0 :: sep2) :
    ∀ a b : Str, ∀ fuel : Nat, (a ++ sep ++ b).length ≤ fuel → c0 ∉ a →
      splitF sep fuel (a ++ sep ++ b) = a :: rsplit sep b := by
  intro a
  induction a with
  | nil =>
    intro b fuel hfuel _
    simp only [List.nil_append] at hfuel ⊢
    have hform : sep ++ b = c0 :: (sep2 ++ b) := by
      rw [hsep]
      simp
    cases fuel with
    | zero =>
      rw [hform] at hfuel
      simp at hfuel
    | succ f =>
      rw [hform, splitF]
      have hp : sep.isPrefixOf (c0 :: (sep2 ++ b)) ∧ sep ≠ [] := by
        constructor
        · rw [← hform]
          exact List.isPrefixOf_iff_prefix.mpr ⟨b, rfl⟩
        · rw [hsep]
          simp
      rw [if_pos hp]
      have hdrop : (c0 :: (sep2 ++ b)).drop sep.length = b := by
        rw [← hform]
        exact List.drop_left sep b
      rw [hdrop]
      have hb : b.length ≤ f := by
        rw [hform] at hfuel
        simp [hsep] at hfuel
        omega
      rw [splitF_eq_rsplit sep b f hb]
  | cons d a2 ih =>
    intro b fuel hfuel hd
    have hd2 : c0 ∉ a2 := fun h => hd (List.mem_cons_of_mem d h)
    have hdne : d ≠ c0 := fun h => hd (h ▸ List.mem_cons_self d a2)
    have hform : d :: a2 ++ sep ++ b = d :: (a2 ++ sep ++ b) := by simp
    rw [hform] at hfuel ⊢
    cases fuel with
    | zero => simp at hfuel
    | succ f =>
      rw [splitF]
      have hp : ¬(sep.isPrefixOf (d :: (a2 ++ sep ++ b)) ∧ sep ≠ []) := by
        intro hc
        have := hc.1
        rw [hsep] at this
        simp [List.isPrefixOf] at this
        exact hdne (by simpa using this.1.symm)
      rw [if_neg hp]
      have hrec : splitF sep f (a2 ++ sep ++ b) = a2 :: rsplit sep b := by
        apply ih b f _ hd2
        simp only [List.length_cons] at hfuel
        omega
      rw [hrec]

theorem rsplit_boundary (sep : Str) (c0 : Char) (sep2 : Str) (hsep : sep = c0 :: sep2)
    (a b : Str) (ha : c0 ∉ a) : rsplit sep (a ++ sep ++ b) = a :: rsplit sep b :=
  splitF_boundary sep c0 sep2 hsep a b (a ++ sep ++ b).length (Nat.le_refl _) ha

/-! ## AssetUri parser (AssetUriVisitor::visit_str in backup.rs) -/

inductive AssetUri where
  | szbson (hash : Str)
  | webp (hash : Str)
  | ogg (hash : Str)
  | unknown (kind : Option Str) (id : Str)
  | neosRec (group_id : Str) (asset_id : Str)
deriving DecidableEq

/-- Outcome of AssetUriVisitor::visit_str: success, a serde custom error,
or a Rust panic (there are two plain unwrap calls on iterator elements in
the source). -/
inductive Visit where
  | ok (u : AssetUri)
  | err (msg : String)
  | panicked
deriving DecidableEq

def protSep : Str := [':', '/', '/', '/']

/-- The kind dispatch of the neosdb arm: Some("7zbson"), Some("webp") and
Some("ogg") map to the typed variants; any other kind (a different suffix,
or no suffix at all) falls through to Unknown. -/
def neosdbKind (p : Str) (k : Option Str) : Visit :=
  match k with
  | some k =>
    if k = "7zbson".data then .ok (.szbson p)
    else if k = "webp".data then .ok (.webp p)
    else if k = "ogg".data then .ok (.ogg p)
    else .ok (.unknown (some k) p)
  | none => .ok (.unknown none p)

/-- The per-protocol part of the visitor, after protocol and path have been
taken from the first two pieces of the split on ":///". -/
def parseWith (protocol path : Str) : Visit :=
  if protocol = "neosdb".data then
    let tail := rsplit ['.'] path
    match tail.head? with
    | none => .panicked
    | some p => neosdbKind p tail[1]?
  else if protocol = "neosrec".data then
    let tail := rsplit ['/'] path
    match tail.head? with
    | none => .panicked
    | some group_id =>
      match tail[1]? with
      | some asset_id => .ok (.neosRec group_id asset_id)
      | none => .panicked
  else .err "unknown asset protocol"

/-- Shallow embedding of AssetUriVisitor::visit_str (backup.rs lines
473-513).  The source splits on the literal ":///", takes the first two
pieces as protocol and path, then splits the path on "." (neosdb) or "/"
(neosrec), taking at most the first two pieces and ignoring the rest, as
the iterator is only advanced twice.  The two unwrap calls in the neosrec
arm (and the one in the neosdb arm) are modelled by the panicked outcome
when the corresponding piece is absent. -/
def parseAssetUri (v : Str) : Visit :=
  let sp := rsplit protSep v
  match sp.head?, sp[1]? with
  | some protocol, some path => parseWith protocol path
  | _, _ => .err "protocol url did not contain a :///"

example : parseAssetUri "neosdb:///abc123.7zbson".data = .ok (.szbson "abc123".data) := by decide
example : parseAssetUri "neosdb:///abc123".data = .ok (.unknown none "abc123".data) := by decide
example : parseAssetUri "neosrec:///G-foo/R-bar".data =
    .ok (.neosRec "G-foo".data "R-bar".data) := by decide
example : parseAssetUri "http://example/x".data =
    .err "protocol url did not contain a :///" := by decide
example : parseAssetUri "http:///x".data = .err "unknown asset protocol" := by decide
example : parseAssetUri "nourl".data = .err "protocol url did not contain a :///" := by decide
example : parseAssetUri "neosrec:///G-foo".data = .panicked := by decide
example : parseAssetUri "neosdb:///a.b.c".data =
    .ok (.unknown (some "b".data) "a".data) := by decide

theorem parseAssetUri_split (v protocol path : Str) (rest : List Str)
    (h : rsplit protSep v = protocol :: path :: rest) :
    parseAssetUri v = parseWith protocol path := by
  unfold parseAssetUri
  rw [h]
  simp only [List.head?_cons, List.getElem?_cons_succ, List.getElem?_cons_zero]

theorem parseWith_neosdb_one (path p : Str) (h : rsplit ['.'] path = [p]) :
    parseWith "neosdb".data path = .ok (.unknown none p) := by
  unfold parseWith
  rw [if_pos rfl, h]
  simp only [List.head?_cons, List.getElem?_cons_succ, List.getElem?_nil]
  rfl

theorem parseWith_neosdb_two (path p k : Str) (rest : List Str)
    (h : rsplit ['.'] path = p :: k :: rest) :
    parseWith "neosdb".data path = neosdbKind p (some k) := by
  unfold parseWith
  rw [if_pos rfl, h]
  simp only [List.head?_cons, List.getElem?_cons_succ, List.getElem?_cons_zero]

theorem parseWith_neosrec_one (path g : Str) (h : rsplit ['/'] path = [g]) :
    parseWith "neosrec".data path = .panicked := by
  unfold parseWith
  rw [if_neg (by decide), if_pos rfl, h]
  simp only [List.head?_cons, List.getElem?_cons_succ, List.getElem?_nil]

theorem parseWith_neosrec_two (path g a : Str) (rest : List Str)
    (h : rsplit ['/'] path = g :: a :: rest) :
    parseWith "neosrec".data path = .ok (.neosRec g a) := by
  unfold parseWith
  rw [if_neg (by decide), if_pos rfl, h]
  simp only [List.head?_cons, List.getElem?_cons_succ, List.getElem?_cons_zero]

theorem rsplit_single_of_not_mem (c : Char) (s : Str) (h : c ∉ s) :
    rsplit [c] s = [s] := by
  apply containsSeq_false_rsplit
  cases hcs : containsSeq [c] s with
  | false => rfl
  | true => exact absurd (mem_of_containsSeq [c] c (by simp) s hcs) h

theorem rsplit_protSep_single (s : Str) (h : ¬ 3 ≤ s.count '/') :
    rsplit protSep s = [s] := by
  apply containsSeq_false_rsplit
  cases hcs : containsSeq protSep s with
  | false => rfl
  | true =>
    have := count_le_of_containsSeq protSep '/' s hcs
    simp [protSep, List.count_cons] at this
    omega

theorem count_slash_no_mem (s : Str) (h : '/' ∉ s) : s.count '/' = 0 :=
  List.count_eq_zero.mpr h

theorem neosdb_outer_split (body : Str) (h : containsSeq protSep body = false) :
    rsplit protSep ("neosdb:///".data ++ body) = ["neosdb".data, body] := by
  have hlit : ("neosdb:///".data : Str) = "neosdb".data ++ protSep := by decide
  rw [hlit]
  rw [rsplit_boundary protSep ':' ['/', '/', '/'] rfl "neosdb".data body (by decide)]
  rw [containsSeq_false_rsplit protSep body h]

theorem neosrec_outer_split (body : Str) (h : containsSeq protSep body = false) :
    rsplit protSep ("neosrec:///".data ++ body) = ["neosrec".data, body] := by
  have hlit : ("neosrec:///".data : Str) = "neosrec".data ++ protSep := by decide
  rw [hlit]
  rw [rsplit_boundary protSep ':' ['/', '/', '/'] rfl "neosrec".data body (by decide)]
  rw [containsSeq_false_rsplit protSep body h]

theorem containsSeq_protSep_no_colon (s : Str) (h : ':' ∉ s) :
    containsSeq protSep s = false := by
  cases hcs : containsSeq protSep s with
  | false => rfl
  | true => exact absurd (mem_of_containsSeq protSep ':' (by decide) s hcs) h

theorem containsSeq_protSep_no_slash (s : Str) (h : '/' ∉ s) :
    containsSeq protSep s = false := by
  cases hcs : containsSeq protSep s with
  | false => rfl
  | true => exact absurd (mem_of_containsSeq protSep '/' (by decide) s hcs) h

theorem containsSeq_protSep_one_slash (g a : Str) (hg : '/' ∉ g) (ha : '/' ∉ a) :
    containsSeq protSep (g ++ '/' :: a) = false := by
  cases hcs : containsSeq protSep (g ++ '/' :: a) with
  | false => rfl
  | true =>
    have hle := count_le_of_containsSeq protSep '/' _ hcs
    rw [List.count_append, List.count_cons] at hle
    rw [List.count_eq_zero.mpr hg, List.count_eq_zero.mpr ha] at hle
    simp [protSep, List.count_cons] at hle

/-- C1: parsing a neosrec URI whose body has no slash.  The specification
(section 4.2 step 3) requires a parse error when either half is missing,
but the source calls unwrap on the second element of the slash split,
which is None, so the code panics instead of returning a UriParse error.
This theorem evaluates the embedded code at every such input and shows the
panic. -/
theorem c1_neosrec_missing_half_panics (body : Str) (h : '/' ∉ body) :
    parseAssetUri ("neosrec:///".data ++ body) = .panicked := by
  have hsp := neosrec_outer_split body (containsSeq_protSep_no_slash body h)
  rw [parseAssetUri_split _ "neosrec".data body [] hsp]
  exact parseWith_neosrec_one body body (rsplit_single_of_not_mem '/' body h)

theorem c1_neosrec_missing_half_panics_witness :
    ('/' ∉ "G-foo".data) ∧ parseAssetUri ("neosrec:///".data ++ "G-foo".data) = .panicked :=
  ⟨by decide, c1_neosrec_missing_half_panics "G-foo".data (by decide)⟩

/-- C3 counterexample: the claim quantifies over every hash string h, but
when h itself contains a dot the parser splits at the first dot, so the
recognized kind suffix is not matched.  At h = "a.b" and kind = "webp" the
parser returns Unknown with kind "b" and id "a" instead of the Webp
variant with hash "a.b". -/
theorem c3_counterexample :
    parseAssetUri "neosdb:///a.b.webp".data = .ok (.unknown (some "b".data) "a".data) ∧
      parseAssetUri "neosdb:///a.b.webp".data ≠ .ok (.webp "a.b".data) := by
  constructor
  · decide
  · decide

/-- C3 amended: for every hash h and kind k that contain neither a dot nor
a colon, parsing neosdb:///h.k yields the matching typed variant for the
three recognized kinds and Unknown with the kind preserved otherwise. -/
theorem c3_neosdb_kind_dispatch (h k : Str) (hdh : '.' ∉ h) (hch : ':' ∉ h)
    (hdk : '.' ∉ k) (hck : ':' ∉ k) :
    parseAssetUri ("neosdb:///".data ++ (h ++ '.' :: k)) =
      (if k = "7zbson".data then Visit.ok (.szbson h)
       else if k = "webp".data then Visit.ok (.webp h)
       else if k = "ogg".data then Visit.ok (.ogg h)
       else Visit.ok (.unknown (some k) h)) := by
  have hbody : containsSeq protSep (h ++ '.' :: k) = false := by
    apply containsSeq_protSep_no_colon
    intro hmem
    rcases List.mem_append.mp hmem with hc | hc
    · exact hch hc
    · rcases List.mem_cons.mp hc with hc | hc
      · exact absurd hc (by decide)
      · exact hck hc
  have hsp := neosdb_outer_split (h ++ '.' :: k) hbody
  rw [parseAssetUri_split _ "neosdb".data (h ++ '.' :: k) [] hsp]
  have hin : rsplit ['.'] (h ++ '.' :: k) = h :: rsplit ['.'] k := by
    have hform : h ++ '.' :: k = h ++ ['.'] ++ k := by simp
    rw [hform]
    exact rsplit_boundary ['.'] '.' [] rfl h k hdh
  rw [rsplit_single_of_not_mem '.' k hdk] at hin
  rw [parseWith_neosdb_two _ h k [] hin]
  rfl

theorem c3_neosdb_kind_dispatch_witness :
    ('.' ∉ "abc".data) ∧ (':' ∉ "abc".data) ∧ ('.' ∉ "7zbson".data) ∧ (':' ∉ "7zbson".data) ∧
      parseAssetUri ("neosdb:///".data ++ ("abc".data ++ '.' :: "7zbson".data)) =
        (if "7zbson".data = "7zbson".data then Visit.ok (.szbson "abc".data)
         else if "7zbson".data = "webp".data then Visit.ok (.webp "abc".data)
         else if "7zbson".data = "ogg".data then Visit.ok (.ogg "abc".data)
         else Visit.ok (.unknown (some "7zbson".data) "abc".data)) :=
  ⟨by decide, by decide, by decide, by decide,
    c3_neosdb_kind_dispatch "abc".data "7zbson".data (by decide) (by decide) (by decide) (by decide)⟩

/-- C8 counterexample: the claim states that a successful NeosRec parse
always carries non-empty group and asset ids, but the parser imposes no
such check: on neosrec:////x it succeeds with an empty group_id. -/
theorem c8_counterexample :
    parseAssetUri "neosrec:////x".data = .ok (.neosRec [] "x".data) := by decide

/-- C8 amended: a NeosRec parse returns the first two slash-separated
pieces of the body as group_id and asset_id; either piece may be empty,
and no non-emptiness is enforced. -/
theorem c8_neosrec_segments (g a : Str) (hg : '/' ∉ g) (ha : '/' ∉ a) :
    parseAssetUri ("neosrec:///".data ++ (g ++ '/' :: a)) = .ok (.neosRec g a) := by
  have hsp := neosrec_outer_split (g ++ '/' :: a) (containsSeq_protSep_one_slash g a hg ha)
  rw [parseAssetUri_split _ "neosrec".data (g ++ '/' :: a) [] hsp]
  have hin : rsplit ['/'] (g ++ '/' :: a) = g :: rsplit ['/'] a := by
    have hform : g ++ '/' :: a = g ++ ['/'] ++ a := by simp
    rw [hform]
    exact rsplit_boundary ['/'] '/' [] rfl g a hg
  rw [rsplit_single_of_not_mem '/' a ha] at hin
  exact parseWith_neosrec_two _ g a [] hin

theorem c8_neosrec_segments_witness :
    ('/' ∉ ([] : Str)) ∧ ('/' ∉ "x".data) ∧
      parseAssetUri ("neosrec:///".data ++ ([] ++ '/' :: "x".data)) = .ok (.neosRec [] "x".data) :=
  ⟨by decide, by decide, c8_neosrec_segments [] "x".data (by decide) (by decide)⟩

/-- C9: a neosdb body with two or more dots is cut at the first two dots;
the first piece is the id, the second the kind, and everything after the
second dot is silently discarded, with no error.  In particular
neosdb:///a.b.c parses to Unknown with kind b and id a, and in general the
result only depends on the first two pieces. -/
theorem c9_neosdb_extra_dots_discarded :
    parseAssetUri "neosdb:///a.b.c".data = .ok (.unknown (some "b".data) "a".data) ∧
      ∀ h k rest : Str, '.' ∉ h → ':' ∉ h → '.' ∉ k → ':' ∉ k → ':' ∉ rest →
        parseAssetUri ("neosdb:///".data ++ (h ++ '.' :: (k ++ '.' :: rest))) =
          (if k = "7zbson".data then Visit.ok (.szbson h)
           else if k = "webp".data then Visit.ok (.webp h)
           else if k = "ogg".data then Visit.ok (.ogg h)
           else Visit.ok (.unknown (some k) h)) := by
  constructor
  · decide
  · intro h k rest hdh hch hdk hck hcr
    have hbody : containsSeq protSep (h ++ '.' :: (k ++ '.' :: rest)) = false := by
      apply containsSeq_protSep_no_colon
      intro hmem
      rcases List.mem_append.mp hmem with hc | hc
      · exact hch hc
      · rcases List.mem_cons.mp hc with hc | hc
        · exact absurd hc (by decide)
        · rcases List.mem_append.mp hc with hc | hc
          · exact hck hc
          · rcases List.mem_cons.mp hc with hc | hc
            · exact absurd hc (by decide)
            · exact hcr hc
    have hsp := neosdb_outer_split _ hbody
    rw [parseAssetUri_split _ "neosdb".data _ [] hsp]
    have hin1 : rsplit ['.'] (h ++ '.' :: (k ++ '.' :: rest)) =
        h :: rsplit ['.'] (k ++ '.' :: rest) := by
      have hform : h ++ '.' :: (k ++ '.' :: rest) = h ++ ['.'] ++ (k ++ '.' :: rest) := by simp
      rw [hform]
      exact rsplit_boundary ['.'] '.' [] rfl h (k ++ '.' :: rest) hdh
    have hin2 : rsplit ['.'] (k ++ '.' :: rest) = k :: rsplit ['.'] rest := by
      have hform : k ++ '.' :: rest = k ++ ['.'] ++ rest := by simp
      rw [hform]
      exact rsplit_boundary ['.'] '.' [] rfl k rest hdk
    rw [hin2] at hin1
    rw [parseWith_neosdb_two _ h k (rsplit ['.'] rest) hin1]
    rfl

theorem c9_neosdb_extra_dots_discarded_witness :
    parseAssetUri ("neosdb:///".data ++ ("a".data ++ '.' :: ("b".data ++ '.' :: "c".data))) =
      Visit.ok (.unknown (some "b".data) "a".data) := by
  have h2 := c9_neosdb_extra_dots_discarded.2 "a".data "b".data "c".data
    (by decide) (by decide) (by decide) (by decide) (by decide)
  rw [if_neg (by decide), if_neg (by decide), if_neg (by decide)] at h2
  exact h2

/-! ## SZBson framing (uncompress_7z in backup.rs)

The input file is modelled as a list of bytes.  The source wraps the file
in a BufReader and performs two plain read calls: one into a 13 byte
zero-initialized status buffer and one into a discarded 8 byte buffer.
For a regular file a read call returns min(requested, remaining) bytes and
leaves the untouched suffix of the buffer at its initial zero value; the
return counts are ignored by the source.  The stream handed to the LZMA
decoder is the chain of the full 13 byte status buffer and the rest of the
file.  The decoder itself lives in the external lzma_rs crate and is kept
abstract as a parameter D; where a claim needs a property of the decoder
it is stated as a hypothesis taken from the specification of the LZMA1
format (a 13 byte header followed by a 5 byte range coder initialization
must be available before any output is produced).
-/

inductive LzmaErr where
  | ioErr
  | fmtErr
deriving DecidableEq

/-- The byte stream that uncompress_7z presents to the LZMA decoder:
the 13 byte status buffer (zero padded if the file is shorter) followed by
the bytes of the file after the skipped 8 byte compressed-size field. -/
def szStream (bs : List Nat) : List Nat :=
  (bs.take 13 ++ List.replicate (13 - bs.length) 0) ++
    bs.drop (min 13 bs.length + min 8 (bs.length - min 13 bs.length))

/-- Shallow embedding of uncompress_7z (backup.rs lines 411-423),
parameterized by the LZMA decoder of the lzma_rs crate. -/
def uncompress7z (D : List Nat → Except LzmaErr (List Nat)) (bs : List Nat) :
    Except LzmaErr (List Nat) :=
  D (szStream bs)

theorem szStream_skip (header extra payload : List Nat)
    (hh : header.length = 13) (he : extra.length = 8) :
    szStream (header ++ extra ++ payload) = header ++ payload := by
  unfold szStream
  have hlen : (header ++ extra ++ payload).length = 21 + payload.length := by
    simp [hh, he]
    omega
  have htake : (header ++ extra ++ payload).take 13 = header := by
    rw [List.append_assoc, ← hh, List.take_left]
  have hdrop : (header ++ extra ++ payload).drop 21 = payload := by
    have h21 : (header ++ extra).length = 21 := by
      simp [hh, he]
    rw [← h21, List.drop_left]
  have hrep : 13 - (header ++ extra ++ payload).length = 0 := by
    omega
  have hp2 : min 13 (header ++ extra ++ payload).length +
      min 8 ((header ++ extra ++ payload).length - min 13 (header ++ extra ++ payload).length)
      = 21 := by
    omega
  rw [htake, hrep, hp2, hdrop]
  simp

/-- C4: for any input whose first 13 bytes are the LZMA1 header and whose
bytes from offset 21 on are the payload, the stream presented to the
decoder is exactly header plus payload, with the 8 bytes at offsets 13..21
discarded; hence if the reference decoder D accepts header plus payload
and produces out, uncompress_7z succeeds and produces exactly out. -/
theorem c4_szbson_framing (D : List Nat → Except LzmaErr (List Nat))
    (header extra payload out : List Nat)
    (hh : header.length = 13) (he : extra.length = 8)
    (hdec : D (header ++ payload) = .ok out) :
    uncompress7z D (header ++ extra ++ payload) = .ok out := by
  unfold uncompress7z
  rw [szStream_skip header extra payload hh he, hdec]

theorem c4_szbson_framing_witness :
    (List.replicate 13 0).length = 13 ∧ (List.replicate 8 (255 : Nat)).length = 8 ∧
      uncompress7z Except.ok
        (List.replicate 13 0 ++ List.replicate 8 (255 : Nat) ++ [1, 2, 3]) =
        .ok (List.replicate 13 0 ++ [1, 2, 3]) :=
  ⟨by decide, by decide,
    c4_szbson_framing Except.ok (List.replicate 13 0) (List.replicate 8 255) [1, 2, 3]
      (List.replicate 13 0 ++ [1, 2, 3]) (by decide) (by decide) rfl⟩

theorem szStream_short (bs : List Nat) (h : bs.length ≤ 21) :
    szStream bs = bs.take 13 ++ List.replicate (13 - bs.length) 0 := by
  unfold szStream
  have hdrop : bs.drop (min 13 bs.length + min 8 (bs.length - min 13 bs.length)) = [] := by
    apply List.drop_eq_nil_of_le
    omega
  rw [hdrop]
  simp

theorem szStream_short_length (bs : List Nat) (h : bs.length ≤ 21) :
    (szStream bs).length = 13 := by
  rw [szStream_short bs h]
  rw [List.length_append, List.length_take, List.length_replicate]
  omega

/-- C5: on any input shorter than 21 bytes the stream presented to the
LZMA decoder is exactly 13 bytes long (the zero padded header with an
empty payload), so for any decoder that rejects streams too short to hold
the 13 byte header plus the 5 byte range coder initialization, SZBson
decoding fails with an IO or LZMA-format error.  The embedding is a total
function, so no panic is possible; in the source every error of
uncompress_7z is wrapped in the Lzma variant of the crate error type. -/
theorem c5_short_input_errors (D : List Nat → Except LzmaErr (List Nat))
    (hD : ∀ s : List Nat, s.length < 18 → ∃ e : LzmaErr, D s = .error e)
    (bs : List Nat) (hbs : bs.length < 21) :
    ∃ e : LzmaErr, uncompress7z D bs = .error e := by
  unfold uncompress7z
  apply hD
  rw [szStream_short_length bs (by omega)]
  omega

theorem c5_short_input_errors_witness :
    (∀ s : List Nat, s.length < 18 →
      ∃ e : LzmaErr, (fun t : List Nat =>
        if t.length < 18 then (Except.error LzmaErr.ioErr : Except LzmaErr (List Nat))
        else .ok []) s = .error e) ∧
    ([] : List Nat).length < 21 ∧
    ∃ e : LzmaErr, uncompress7z (fun t : List Nat =>
        if t.length < 18 then (Except.error LzmaErr.ioErr : Except LzmaErr (List Nat))
        else .ok []) [] = .error e :=
  ⟨fun s hs => ⟨.ioErr, by simp [hs]⟩, by decide,
    c5_short_input_errors _ (fun s hs => ⟨.ioErr, by simp [hs]⟩) [] (by decide)⟩

/-! ## JSON values and the lenient field normalizers (de.rs)

A small model of serde_json values, used for the record-level helpers
null_to_default and err_to_none.  Struct field deserialization in serde is
modelled at the level of a single field: for a field carrying a
deserialize_with attribute and no default attribute, the derived
implementation calls the custom function when the key is present and
returns a missing-field error when the key is absent (the Option
special-case for absent fields is only generated when no deserialize_with
attribute is given). -/

inductive Json where
  | null
  | bool (b : Bool)
  | num (n : Int)
  | str (s : Str)
  | arr (xs : List Json)
  | obj (kvs : List (Str × Json))

/-- serde deserialization of Option T: null becomes None, any other value
is handed to the inner deserializer and wrapped in Some. -/
def deserOption (dT : Json → Except String α) : Json → Except String (Option α)
  | .null => .ok none
  | v => (dT v).map some

/-- Shallow embedding of null_to_default (de.rs lines 5-11): deserialize
Option T and replace None by the default value of T. -/
def null_to_default (dT : Json → Except String α) (d0 : α) (j : Json) : Except String α :=
  (deserOption dT j).map (fun o => o.getD d0)

/-- Shallow embedding of err_to_none (de.rs lines 13-19): run the inner
deserialization and always succeed, turning any inner error into None. -/
def err_to_none (dT : Json → Except String α) (j : Json) : Except String (Option α) :=
  .ok (dT j).toOption

/-- The serde-derive handling of one struct field annotated with a
deserialize_with attribute and no default attribute: a present key is
deserialized with the annotated function, an absent key is a
missing-field error. -/
def fieldWith (dW : Json → Except String α) (entry : Option Json) : Except String α :=
  match entry with
  | some j => dW j
  | none => .error "missing field"

/-- Element deserializer for Vec of strings, the inner type of the tags
field of Record. -/
def deserStrList : Json → Except String (List Str)
  | .arr xs => xs.mapM (fun j => match j with
      | .str s => Except.ok s
      | _ => Except.error "invalid type: expected string")
  | _ => .error "invalid type: expected array"

/-- C2 counterexample: at the tags field of Record (annotated with
null_to_default and no serde default attribute), a present null key
deserializes to the empty list, but a record in which the key is entirely
absent is a missing-field error rather than the zero value, so the two do
not behave identically as claimed. -/
theorem c2_counterexample :
    fieldWith (null_to_default deserStrList []) (some .null) = .ok [] ∧
      fieldWith (null_to_default deserStrList []) none ≠ .ok [] := by
  constructor
  · rfl
  · intro h
    rw [show fieldWith (null_to_default deserStrList []) none = Except.error "missing field"
      from rfl] at h
    exact Except.noConfusion h

/-- C2 amended: for every field annotated with null_to_default, a present
null value deserializes to the default (zero) value of the type, and a
present value accepted by the inner deserializer is passed through; but an
absent key is a missing-field error, because serde only applies a
deserialize_with attribute to present keys. -/
theorem c2_null_to_default (dT : Json → Except String α) (d0 : α) :
    fieldWith (null_to_default dT d0) (some .null) = .ok d0 ∧
      (∀ j v, dT j = .ok v → fieldWith (null_to_default dT d0) (some j) = .ok v ∨ j = .null) ∧
      fieldWith (null_to_default dT d0) none = .error "missing field" := by
  refine ⟨rfl, ?_, rfl⟩
  intro j v hj
  cases j with
  | null => exact Or.inr rfl
  | bool b => exact Or.inl (by simp [fieldWith, null_to_default, deserOption, hj, Except.map])
  | num n => exact Or.inl (by simp [fieldWith, null_to_default, deserOption, hj, Except.map])
  | str s => exact Or.inl (by simp [fieldWith, null_to_default, deserOption, hj, Except.map])
  | arr xs => exact Or.inl (by simp [fieldWith, null_to_default, deserOption, hj, Except.map])
  | obj kvs => exact Or.inl (by simp [fieldWith, null_to_default, deserOption, hj, Except.map])

/-- C10 counterexample: err_to_none itself always returns Ok, but the
claim that an annotated field can never by itself cause record loading to
fail is refuted by an absent key: with a deserialize_with attribute and no
default attribute, serde reports a missing-field error for the absent
annotated key, so the record fails to load. -/
theorem c10_counterexample :
    fieldWith (err_to_none deserStrList) none = .error "missing field" ∧
      (∀ j, fieldWith (err_to_none deserStrList) (some j) = .ok (deserStrList j).toOption) := by
  exact ⟨rfl, fun j => rfl⟩

/-- C10 amended: err_to_none returns Ok on every present input value of
any shape, converting any inner deserialization error into None, so a
present annotated field never fails; an absent annotated key is still a
missing-field error at the struct level. -/
theorem c10_err_to_none (dT : Json → Except String α) :
    (∀ j : Json, err_to_none dT j = .ok (dT j).toOption) ∧
      (∀ j v, dT j = .error v → err_to_none dT j = .ok none) ∧
      fieldWith (err_to_none dT) none = .error "missing field" := by
  refine ⟨fun j => rfl, ?_, rfl⟩
  intro j v hj
  unfold err_to_none
  rw [hj]
  rfl

/-! ## BSON values and the FieldValue union (backup.rs lines 653-669)

BSON documents are modelled by the shapes the Manifest mapper can meet:
strings, booleans, 32 and 64 bit integers, doubles, null, arrays and
documents.  Doubles are carried opaquely (no arithmetic is ever performed
on them); the rational numbers serve as the carrier, with the
integer-to-double widening of serde modelled by the integer cast.
Document entries are kept in order as an association list, matching the
ordered bson Document type. -/

abbrev F64 := Rat

inductive Bson where
  | str (s : Str)
  | bool (b : Bool)
  | int32 (n : Int)
  | int64 (n : Int)
  | double (x : F64)
  | null
  | array (elts : List Bson)
  | doc (entries : List (Str × Bson))

/-- serde untagged branch for String: only a string matches. -/
def tryStr : Bson → Option Str
  | .str s => some s
  | _ => none

/-- serde untagged branch for bool: only a boolean matches. -/
def tryBool : Bson → Option Bool
  | .bool b => some b
  | _ => none

/-- serde untagged branch for i64: either integer width matches (narrower
integers are widened); doubles never match. -/
def tryInt : Bson → Option Int
  | .int32 n => some n
  | .int64 n => some n
  | _ => none

/-- serde deserialization of f64 from buffered content: doubles match, and
integer content is widened to a double; nothing else matches. -/
def tryF64 : Bson → Option F64
  | .double x => some x
  | .int32 n => some (n : F64)
  | .int64 n => some (n : F64)
  | _ => none

/-- serde untagged branch for a two element double array: exactly two
elements, each deserializable as f64. -/
def tryVec2 : Bson → Option (F64 × F64)
  | .array [a, b] =>
    match tryF64 a, tryF64 b with
    | some x, some y => some (x, y)
    | _, _ => none
  | _ => none

def tryVec3 : Bson → Option (F64 × F64 × F64)
  | .array [a, b, c] =>
    match tryF64 a, tryF64 b, tryF64 c with
    | some x, some y, some z => some (x, y, z)
    | _, _, _ => none
  | _ => none

def tryVec4 : Bson → Option (F64 × F64 × F64 × F64)
  | .array [a, b, c, d] =>
    match tryF64 a, tryF64 b, tryF64 c, tryF64 d with
    | some x, some y, some z, some w => some (x, y, z, w)
    | _, _, _, _ => none
  | _ => none

/-- serde untagged branch for Option Unit: null yields None; any other
content would have to deserialize a unit inside Some, which fails. -/
def tryNullUnit : Bson → Option (Option Unit)
  | .null => some none
  | _ => none

/-- The FieldValue union (backup.rs lines 653-664), in declaration order:
Str, Bool, Int64, FVec2, FVec3, FVec4, Null, Dunno. -/
inductive FieldValue where
  | str (s : Str)
  | bool (b : Bool)
  | int64 (n : Int)
  | fvec2 (v : F64 × F64)
  | fvec3 (v : F64 × F64 × F64)
  | fvec4 (v : F64 × F64 × F64 × F64)
  | null (u : Option Unit)
  | dunno (b : Bson)

/-- Shallow embedding of the serde untagged deserialization of FieldValue:
the branches are tried in declaration order on the buffered content and
the first one that matches wins; the trailing Dunno branch holds the raw
BSON and always succeeds. -/
def fieldValueFromBson (b : Bson) : FieldValue :=
  match tryStr b with
  | some s => .str s
  | none =>
  match tryBool b with
  | some v => .bool v
  | none =>
  match tryInt b with
  | some n => .int64 n
  | none =>
  match tryVec2 b with
  | some v => .fvec2 v
  | none =>
  match tryVec3 b with
  | some v => .fvec3 v
  | none =>
  match tryVec4 b with
  | some v => .fvec4 v
  | none =>
  match tryNullUnit b with
  | some u => .null u
  | none => .dunno b

/-- The branch list exactly as the specification section 3 lists it:
String, Bool, Int64, FVec2, FVec3, FVec4, Null, with the terminal RawBson
branch supplied by the fold below. -/
def fvBranches : List (Bson → Option FieldValue) :=
  [fun b => (tryStr b).map .str,
   fun b => (tryBool b).map .bool,
   fun b => (tryInt b).map .int64,
   fun b => (tryVec2 b).map .fvec2,
   fun b => (tryVec3 b).map .fvec3,
   fun b => (tryVec4 b).map .fvec4,
   fun b => (tryNullUnit b).map .null]

/-- First-match-wins over an ordered branch list, with the total RawBson
branch at the end; this is the specification-side description of the
untagged decoding. -/
def firstBranch : List (Bson → Option FieldValue) → Bson → FieldValue
  | [], b => .dunno b
  | f :: fs, b =>
    match f b with
    | some v => v
    | none => firstBranch fs b

theorem tryVec2_len (l : List Bson) (h : l.length ≠ 2) : tryVec2 (.array l) = none := by
  match l with
  | [] => rfl
  | [a] => rfl
  | [a, b] => exact absurd rfl h
  | a :: b :: c :: rest => rfl

theorem tryVec3_len (l : List Bson) (h : l.length ≠ 3) : tryVec3 (.array l) = none := by
  match l with
  | [] => rfl
  | [a] => rfl
  | [a, b] => rfl
  | [a, b, c] => exact absurd rfl h
  | a :: b :: c :: d :: rest => rfl

theorem tryVec4_len (l : List Bson) (h : l.length ≠ 4) : tryVec4 (.array l) = none := by
  match l with
  | [] => rfl
  | [a] => rfl
  | [a, b] => rfl
  | [a, b, c] => rfl
  | [a, b, c, d] => exact absurd rfl h
  | a :: b :: c :: d :: e :: rest => rfl

/-- C6: projecting a tail-map BSON value to FieldValue is the first-match
fold over the branches in the exact order String, Bool, Int64, FVec2,
FVec3, FVec4, Null with the terminal RawBson branch, which accepts every
value, so the projection is a total function; and an array of doubles
whose length is not 2, 3 or 4 falls through every vector branch and lands
in RawBson. -/
theorem c6_fieldvalue_first_match :
    (∀ b : Bson, fieldValueFromBson b = firstBranch fvBranches b) ∧
      (∀ xs : List F64, xs.length ≠ 2 → xs.length ≠ 3 → xs.length ≠ 4 →
        fieldValueFromBson (.array (xs.map .double)) = .dunno (.array (xs.map .double))) := by
  constructor
  · intro b
    unfold fieldValueFromBson fvBranches
    simp only [firstBranch]
    cases h1 : tryStr b with
    | some s => simp [h1]
    | none =>
      simp only [h1, Option.map_none']
      cases h2 : tryBool b with
      | some v => simp [h2]
      | none =>
        simp only [h2, Option.map_none']
        cases h3 : tryInt b with
        | some n => simp [h3]
        | none =>
          simp only [h3, Option.map_none']
          cases h4 : tryVec2 b with
          | some v => simp [h4]
          | none =>
            simp only [h4, Option.map_none']
            cases h5 : tryVec3 b with
            | some v => simp [h5]
            | none =>
              simp only [h5, Option.map_none']
              cases h6 : tryVec4 b with
              | some v => simp [h6]
              | none =>
                simp only [h6, Option.map_none']
                cases h7 : tryNullUnit b with
                | some u => simp [h7]
                | none => simp [h7]
  · intro xs h2 h3 h4
    have hl : (xs.map Bson.double).length ≠ 2 := by
      rw [List.length_map]
      exact h2
    have hl3 : (xs.map Bson.double).length ≠ 3 := by
      rw [List.length_map]
      exact h3
    have hl4 : (xs.map Bson.double).length ≠ 4 := by
      rw [List.length_map]
      exact h4
    unfold fieldValueFromBson
    rw [tryVec2_len _ hl, tryVec3_len _ hl3, tryVec4_len _ hl4]
    rfl

theorem c6_fieldvalue_first_match_witness :
    ([(0 : F64), 0, 0, 0, 0].length ≠ 2) ∧
      fieldValueFromBson (.array ([(0 : F64), 0, 0, 0, 0].map .double)) =
        .dunno (.array ([(0 : F64), 0, 0, 0, 0].map .double)) :=
  ⟨by decide, c6_fieldvalue_first_match.2 [0, 0, 0, 0, 0] (by decide) (by decide) (by decide)⟩

/-! ## Ordered association lists (the BTreeMap model)

BTreeMap over Rust strings iterates keys in byte-lexicographic order,
which on UTF-8 equals code-point lexicographic order.  The map is modelled
as an association list kept sorted by strictly increasing key, built by
left-to-right insertion where a later duplicate key overwrites the earlier
value, exactly as repeated BTreeMap::insert does. -/

def strLt : Str → Str → Bool
  | [], [] => false
  | [], _ :: _ => true
  | _ :: _, [] => false
  | a :: as2, b :: bs2 =>
    if a.toNat < b.toNat then true
    else if b.toNat < a.toNat then false
    else strLt as2 bs2

theorem strLt_irrefl : ∀ a : Str, strLt a a = false := by
  intro a
  induction a with
  | nil => rfl
  | cons c rest ih =>
    rw [strLt]
    simp [ih]

theorem strLt_asymm : ∀ a b : Str, strLt a b = true → strLt b a = false := by
  intro a
  induction a with
  | nil =>
    intro b h
    cases b with
    | nil => exact absurd h (by simp [strLt])
    | cons d bs => rfl
  | cons c as2 ih =>
    intro b h
    cases b with
    | nil => exact absurd h (by simp [strLt])
    | cons d bs =>
      rw [strLt] at h
      rw [strLt]
      split_ifs at h ⊢ <;> first | rfl | omega | exact ih bs h | simp_all

theorem strLt_total_eq : ∀ a b : Str, strLt a b = false → strLt b a = false → a = b := by
  intro a
  induction a with
  | nil =>
    intro b h1 _
    cases b with
    | nil => rfl
    | cons d bs => exact absurd h1 (by simp [strLt])
  | cons c as2 ih =>
    intro b h1 h2
    cases b with
    | nil => exact absurd h2 (by simp [strLt])
    | cons d bs =>
      rw [strLt] at h1 h2
      have hcd : c = d := by
        apply Char.eq_of_val_eq
        apply UInt32.ext
        show c.toNat = d.toNat
        split_ifs at h1 h2 <;> simp_all <;> omega
      subst hcd
      rw [if_neg (by omega), if_neg (by omega)] at h1
      rw [ih bs h1 ?_]
      rw [if_neg (by omega), if_neg (by omega)] at h2
      exact h2

theorem strLt_trans : ∀ a b c : Str, strLt a b = true → strLt b c = true → strLt a c = true := by
  intro a
  induction a with
  | nil =>
    intro b c h1 h2
    cases b with
    | nil => exact absurd h1 (by simp [strLt])
    | cons e bs =>
      cases c with
      | nil => exact absurd h2 (by simp [strLt])
      | cons f cs => rfl
  | cons d as2 ih =>
    intro b c h1 h2
    cases b with
    | nil => exact absurd h1 (by simp [strLt])
    | cons e bs =>
      cases c with
      | nil => exact absurd h2 (by simp [strLt])
      | cons f cs =>
        rw [strLt] at h1 h2
        rw [strLt]
        split_ifs at h1 h2 ⊢ <;>
          first | rfl | omega | exact ih bs cs h1 h2 | simp_all

def insertSorted (k : Str) (v : α) : List (Str × α) → List (Str × α)
  | [] => [(k, v)]
  | (k2, v2) :: rest =>
    if strLt k k2 then (k, v) :: (k2, v2) :: rest
    else if strLt k2 k then (k2, v2) :: insertSorted k v rest
    else (k2, v) :: rest

/-- Folding BTreeMap::insert over the entries left to right: a later
duplicate key overwrites the earlier value. -/
def mapOfList (l : List (Str × α)) : List (Str × α) :=
  l.foldl (fun acc kv => insertSorted kv.1 kv.2 acc) []

def sortedKeys (l : List (Str × α)) : Prop :=
  List.Pairwise (fun p q => strLt p.1 q.1 = true) l

theorem mem_insertSorted (k : Str) (v : α) :
    ∀ l : List (Str × α), ∀ p ∈ insertSorted k v l, (p.1 = k ∧ p.2 = v) ∨ p ∈ l := by
  intro l
  induction l with
  | nil =>
    intro p hp
    rw [insertSorted] at hp
    rcases List.mem_singleton.mp hp with h
    exact Or.inl (by rw [h]; exact ⟨rfl, rfl⟩)
  | cons q rest ih =>
    intro p hp
    obtain ⟨k2, v2⟩ := q
    rw [insertSorted] at hp
    split_ifs at hp with h1 h2
    · rcases List.mem_cons.mp hp with h | h
      · exact Or.inl (by rw [h]; exact ⟨rfl, rfl⟩)
      · exact Or.inr h
    · rcases List.mem_cons.mp hp with h | h
      · exact Or.inr (by rw [h]; exact List.mem_cons_self _ _)
      · rcases ih p h with h | h
        · exact Or.inl h
        · exact Or.inr (List.mem_cons_of_mem _ h)
    · have h1f : strLt k k2 = false := by simpa using h1
      have h2f : strLt k2 k = false := by simpa using h2
      have hk : k2 = k := strLt_total_eq k2 k h2f h1f
      rcases List.mem_cons.mp hp with h | h
      · exact Or.inl (by rw [h, hk]; exact ⟨rfl, rfl⟩)
      · exact Or.inr (List.mem_cons_of_mem _ h)

theorem mem_mapOfList (l : List (Str × α)) (p : Str × α) (hp : p ∈ mapOfList l) : p ∈ l := by
  have key : ∀ l2 : List (Str × α), ∀ acc : List (Str × α),
      p ∈ l2.foldl (fun acc kv => insertSorted kv.1 kv.2 acc) acc → p ∈ acc ∨ p ∈ l2 := by
    intro l2
    induction l2 with
    | nil =>
      intro acc h
      exact Or.inl h
    | cons q rest ih =>
      intro acc h
      rw [List.foldl_cons] at h
      rcases ih _ h with h2 | h2
      · rcases mem_insertSorted q.1 q.2 acc p h2 with h3 | h3
        · refine Or.inr (List.mem_cons.mpr (Or.inl ?_))
          obtain ⟨pk, pv⟩ := p
          obtain ⟨qk, qv⟩ := q
          simp at h3
          simp [h3]
        · exact Or.inl h3
      · exact Or.inr (List.mem_cons_of_mem _ h2)
  rcases key l [] hp with h | h
  · exact absurd h (List.not_mem_nil p)
  · exact h

theorem insertSorted_sorted (k : Str) (v : α) :
    ∀ l : List (Str × α), sortedKeys l → sortedKeys (insertSorted k v l) := by
  intro l
  induction l with
  | nil =>
    intro _
    exact List.pairwise_singleton _ _
  | cons q rest ih =>
    intro hs
    obtain ⟨k2, v2⟩ := q
    rw [insertSorted]
    rcases List.pairwise_cons.mp hs with ⟨hhead, htail⟩
    split_ifs with h1 h2
    · refine List.pairwise_cons.mpr ⟨?_, hs⟩
      intro q hq
      rcases List.mem_cons.mp hq with h | h
      · rw [h]
        exact h1
      · exact strLt_trans _ _ _ h1 (hhead q h)
    · refine List.pairwise_cons.mpr ⟨?_, ih htail⟩
      intro q hq
      rcases mem_insertSorted k v rest q hq with h | h
      · rw [h.1]
        exact h2
      · exact hhead q h
    · refine List.pairwise_cons.mpr ⟨?_, htail⟩
      intro q hq
      exact hhead q hq

theorem mapOfList_sorted (l : List (Str × α)) : sortedKeys (mapOfList l) := by
  have key : ∀ l2 : List (Str × α), ∀ acc : List (Str × α), sortedKeys acc →
      sortedKeys (l2.foldl (fun acc kv => insertSorted kv.1 kv.2 acc) acc) := by
    intro l2
    induction l2 with
    | nil =>
      intro acc h
      exact h
    | cons q rest ih =>
      intro acc h
      rw [List.foldl_cons]
      exact ih _ (insertSorted_sorted q.1 q.2 acc h)
  exact key l [] List.Pairwise.nil

theorem insertSorted_append (k : Str) (v : α) :
    ∀ l : List (Str × α), (∀ p ∈ l, strLt p.1 k = true) →
      insertSorted k v l = l ++ [(k, v)] := by
  intro l
  induction l with
  | nil =>
    intro _
    rfl
  | cons q rest ih =>
    intro hl
    obtain ⟨k2, v2⟩ := q
    have hlt : strLt k2 k = true := hl (k2, v2) (List.mem_cons_self _ _)
    rw [insertSorted, if_neg (by rw [strLt_asymm k2 k hlt]; simp), if_pos hlt,
      ih (fun p hp => hl p (List.mem_cons_of_mem _ hp))]
    rfl

theorem mapOfList_sorted_id (l : List (Str × α)) (h : sortedKeys l) : mapOfList l = l := by
  have key : ∀ l2 : List (Str × α), ∀ acc : List (Str × α), sortedKeys (acc ++ l2) →
      l2.foldl (fun acc kv => insertSorted kv.1 kv.2 acc) acc = acc ++ l2 := by
    intro l2
    induction l2 with
    | nil =>
      intro acc _
      simp
    | cons q rest ih =>
      intro acc hs
      rw [List.foldl_cons]
      have hcross : ∀ p ∈ acc, strLt p.1 q.1 = true := by
        intro p hp
        rcases List.pairwise_append.mp hs with ⟨_, _, hcr⟩
        exact hcr p hp q (List.mem_cons_self _ _)
      have hins : insertSorted q.1 q.2 acc = acc ++ [q] := by
        rw [insertSorted_append q.1 q.2 acc hcross]
      rw [hins, ih (acc ++ [q]) (by simpa using hs)]
      simp
  have := key l [] (by simpa using h)
  simpa [mapOfList] using this

/-! ## Serialization of FieldValue and its stability

serde serialization of the untagged enum writes the payload of the active
variant: strings, booleans and integers directly, the vector variants as
arrays of doubles, the Null variant as BSON null (both None and Some unit
serialize to null), and the Dunno variant as the raw BSON it holds. -/

def serFV : FieldValue → Bson
  | .str s => .str s
  | .bool v => .bool v
  | .int64 n => .int64 n
  | .fvec2 (x, y) => .array [.double x, .double y]
  | .fvec3 (x, y, z) => .array [.double x, .double y, .double z]
  | .fvec4 (x, y, z, w) => .array [.double x, .double y, .double z, .double w]
  | .null _ => .null
  | .dunno b => b

/-- The values the projection can actually produce: the Null variant only
arises as Null None, and a Dunno payload is a value on which every earlier
branch fails, so re-projecting it lands in Dunno again. -/
def WfFV : FieldValue → Prop
  | .null u => u = none
  | .dunno b => fieldValueFromBson b = .dunno b
  | _ => True

theorem fv_wf (b : Bson) : WfFV (fieldValueFromBson b) := by
  unfold fieldValueFromBson
  cases h1 : tryStr b with
  | some s => trivial
  | none =>
  cases h2 : tryBool b with
  | some v => trivial
  | none =>
  cases h3 : tryInt b with
  | some n => trivial
  | none =>
  cases h4 : tryVec2 b with
  | some v => trivial
  | none =>
  cases h5 : tryVec3 b with
  | some v => trivial
  | none =>
  cases h6 : tryVec4 b with
  | some v => trivial
  | none =>
  cases h7 : tryNullUnit b with
  | some u =>
    show WfFV (.null u)
    cases b with
    | null =>
      have : u = none := by
        rw [tryNullUnit] at h7
        exact (Option.some_inj.mp h7).symm
      exact this
    | str s => exact Option.noConfusion h7
    | bool v => exact Option.noConfusion h7
    | int32 n => exact Option.noConfusion h7
    | int64 n => exact Option.noConfusion h7
    | double x => exact Option.noConfusion h7
    | array xs => exact Option.noConfusion h7
    | doc kvs => exact Option.noConfusion h7
  | none =>
    show WfFV (.dunno b)
    show fieldValueFromBson b = .dunno b
    unfold fieldValueFromBson
    rw [h1, h2, h3, h4, h5, h6, h7]

theorem fv_stable (v : FieldValue) (h : WfFV v) : fieldValueFromBson (serFV v) = v := by
  cases v with
  | str s => rfl
  | bool v => rfl
  | int64 n => rfl
  | fvec2 p =>
    obtain ⟨x, y⟩ := p
    rfl
  | fvec3 p =>
    obtain ⟨x, y, z⟩ := p
    rfl
  | fvec4 p =>
    obtain ⟨x, y, z, w⟩ := p
    rfl
  | null u =>
    have : u = none := h
    rw [this]
    rfl
  | dunno b => exact h

/-! ## Primitive BSON deserializers (serde through the bson crate)

The bson deserializer dispatches on the value shape: strings only match
strings, booleans only booleans, i64 accepts both integer widths (narrower
integers are widened, floats are rejected), f64 accepts doubles and both
integer widths, and Option wraps null as None. -/

def deBStr : Bson → Except String Str
  | .str s => .ok s
  | _ => .error "invalid type: expected string"

def deBBool : Bson → Except String Bool
  | .bool b => .ok b
  | _ => .error "invalid type: expected bool"

def deBInt : Bson → Except String Int
  | .int32 n => .ok n
  | .int64 n => .ok n
  | _ => .error "invalid type: expected integer"

def deBF64 : Bson → Except String F64
  | .double x => .ok x
  | .int32 n => .ok (n : F64)
  | .int64 n => .ok (n : F64)
  | _ => .error "invalid type: expected double"

def bIsNull : Bson → Bool
  | .null => true
  | _ => false

def deBOpt (dT : Bson → Except String α) (b : Bson) : Except String (Option α) :=
  if bIsNull b then .ok none
  else
    match dT b with
    | .error e => .error e
    | .ok v => .ok (some v)

def deBOptStr : Bson → Except String (Option Str) :=
  deBOpt deBStr

def serOptStr : Option Str → Bson
  | none => .null
  | some s => .str s

theorem deBOptStr_ser (o : Option Str) : deBOptStr (serOptStr o) = .ok o := by
  cases o <;> rfl

def deV3 : Bson → Except String (F64 × F64 × F64)
  | .array [a, b, c] =>
    match deBF64 a with
    | .error e => .error e
    | .ok x =>
      match deBF64 b with
      | .error e => .error e
      | .ok y =>
        match deBF64 c with
        | .error e => .error e
        | .ok z => .ok (x, y, z)
  | .array _ => .error "invalid length: expected 3 elements"
  | _ => .error "invalid type: expected array"

def deV4 : Bson → Except String (F64 × F64 × F64 × F64)
  | .array [a, b, c, d] =>
    match deBF64 a with
    | .error e => .error e
    | .ok x =>
      match deBF64 b with
      | .error e => .error e
      | .ok y =>
        match deBF64 c with
        | .error e => .error e
        | .ok z =>
          match deBF64 d with
          | .error e => .error e
          | .ok w => .ok (x, y, z, w)
  | .array _ => .error "invalid length: expected 4 elements"
  | _ => .error "invalid type: expected array"

def serV3 : F64 × F64 × F64 → Bson
  | (x, y, z) => .array [.double x, .double y, .double z]

def serV4 : F64 × F64 × F64 × F64 → Bson
  | (x, y, z, w) => .array [.double x, .double y, .double z, .double w]

theorem deV3_ser (p : F64 × F64 × F64) : deV3 (serV3 p) = .ok p := by
  obtain ⟨x, y, z⟩ := p
  rfl

theorem deV4_ser (p : F64 × F64 × F64 × F64) : deV4 (serV4 p) = .ok p := by
  obtain ⟨x, y, z, w⟩ := p
  rfl

/-! ## The Field envelope (backup.rs lines 645-651)

Every versioned leaf is a document with members ID and Data.  The derived
deserializer walks the entries in order: a duplicate member is an error,
unknown members are ignored, a missing ID is an error, and a missing Data
member falls back to the behavior of the data type for an absent field,
which is Ok None exactly when the data type is an Option (passed here as
the dMiss parameter). -/

structure FieldV (T : Type) where
  id : Str
  data : T
deriving DecidableEq

def keyID : Str := "ID".data
def keyData : Str := "Data".data

/-- One step of a derived struct deserializer at a known member: error on
a duplicate, otherwise deserialize the value and continue with the slot
filled. -/
def slotStep (slot : Option α) (dv : Except String α) (cont : α → Except String β)
    (dupMsg : String) : Except String β :=
  match slot with
  | some _ => .error dupMsg
  | none =>
    match dv with
    | .error e => .error e
    | .ok x => cont x

theorem slotStep_none_ok (dv : Except String α) (x : α) (cont : α → Except String β)
    (msg : String) (h : dv = .ok x) : slotStep none dv cont msg = cont x := by
  subst h
  rfl

theorem slotStep_inv (slot : Option α) (dv : Except String α) (cont : α → Except String β)
    (msg : String) (r : β) (h : slotStep slot dv cont msg = .ok r) :
    slot = none ∧ ∃ x, dv = .ok x ∧ cont x = .ok r := by
  match slot with
  | some _ => exact Except.noConfusion h
  | none =>
    match hv : dv with
    | .error e => exact Except.noConfusion h
    | .ok x => exact ⟨rfl, x, rfl, h⟩

/-- Finalization of the Field envelope: ID is required; an absent Data
member falls back to dMiss. -/
def finFieldV (dMiss : Except String T) : Option Str → Option T → Except String (FieldV T)
  | none, _ => .error "missing field ID"
  | some i, none =>
    match dMiss with
    | .error e => .error e
    | .ok d => .ok ⟨i, d⟩
  | some i, some d => .ok ⟨i, d⟩

def goFieldV (dT : Bson → Except String T) (dMiss : Except String T) :
    List (Str × Bson) → Option Str → Option T → Except String (FieldV T)
  | [], idAcc, dataAcc => finFieldV dMiss idAcc dataAcc
  | (k, v) :: rest, idAcc, dataAcc =>
    if k = keyID then
      slotStep idAcc (deBStr v) (fun s => goFieldV dT dMiss rest (some s) dataAcc)
        "duplicate field ID"
    else if k = keyData then
      slotStep dataAcc (dT v) (fun d => goFieldV dT dMiss rest idAcc (some d))
        "duplicate field Data"
    else goFieldV dT dMiss rest idAcc dataAcc

def deFieldV (dT : Bson → Except String T) (dMiss : Except String T) :
    Bson → Except String (FieldV T)
  | .doc entries => goFieldV dT dMiss entries none none
  | _ => .error "invalid type: expected document"

def serFieldV (sT : T → Bson) (f : FieldV T) : Bson :=
  .doc [(keyID, .str f.id), (keyData, sT f.data)]

theorem deFieldV_ser (dT : Bson → Except String T) (dMiss : Except String T)
    (sT : T → Bson) (f : FieldV T) (h : dT (sT f.data) = .ok f.data) :
    deFieldV dT dMiss (serFieldV sT f) = .ok f := by
  obtain ⟨i, d⟩ := f
  show goFieldV dT dMiss [(keyID, .str i), (keyData, sT d)] none none = .ok ⟨i, d⟩
  rw [goFieldV, if_pos rfl, slotStep_none_ok (deBStr (.str i)) i _ _ rfl]
  rw [goFieldV, if_neg (by decide), if_pos rfl]
  simp only at h
  rw [slotStep_none_ok _ _ _ _ h]
  rfl

/-- Inversion for the Field envelope: a successful deserialization got its
data either from a present Data member through dT or from the dMiss
fallback. -/
theorem deFieldV_inv (dT : Bson → Except String T) (dMiss : Except String T)
    (b : Bson) (f : FieldV T) (h : deFieldV dT dMiss b = .ok f) :
    (∃ v, dT v = .ok f.data) ∨ dMiss = .ok f.data := by
  match b with
  | .doc entries =>
    rw [deFieldV] at h
    have key : ∀ (entries : List (Str × Bson)) (idAcc : Option Str) (dataAcc : Option T),
        goFieldV dT dMiss entries idAcc dataAcc = .ok f →
        (∃ v, dT v = .ok f.data) ∨ dMiss = .ok f.data ∨ dataAcc = some f.data := by
      intro entries
      induction entries with
      | nil =>
        intro idAcc dataAcc hgo
        rw [goFieldV] at hgo
        match idAcc with
        | none => exact Except.noConfusion hgo
        | some i =>
          match dataAcc with
          | none =>
            match hd : dMiss with
            | .error e => exact Except.noConfusion hgo
            | .ok d =>
              have : (⟨i, d⟩ : FieldV T) = f := Except.ok.inj hgo
              exact Or.inr (Or.inl (by rw [← this]))
          | some d =>
            have : (⟨i, d⟩ : FieldV T) = f := Except.ok.inj hgo
            exact Or.inr (Or.inr (by rw [← this]))
      | cons e rest ih =>
        intro idAcc dataAcc hgo
        obtain ⟨k, v⟩ := e
        rw [goFieldV] at hgo
        split_ifs at hgo with h1 h2
        · obtain ⟨-, s, -, hcont⟩ := slotStep_inv _ _ _ _ _ hgo
          exact ih _ _ hcont
        · obtain ⟨-, d, hd, hcont⟩ := slotStep_inv _ _ _ _ _ hgo
          rcases ih _ _ hcont with h3 | h3 | h3
          · exact Or.inl h3
          · exact Or.inr (Or.inl h3)
          · refine Or.inl ⟨v, ?_⟩
            rw [hd, Option.some_inj.mp h3]
        · exact ih _ _ hgo
    rcases key entries none none h with h2 | h2 | h2
    · exact Or.inl h2
    · exact Or.inr h2
    · exact Option.noConfusion h2
  | .str s => exact Except.noConfusion h
  | .bool v => exact Except.noConfusion h
  | .int32 n => exact Except.noConfusion h
  | .int64 n => exact Except.noConfusion h
  | .double x => exact Except.noConfusion h
  | .null => exact Except.noConfusion h
  | .array xs => exact Except.noConfusion h

/-! ## Component Data (backup.rs lines 619-630)

Data has fixed members ID, persistent-ID, UpdateOrder and Enabled, plus a
serde-flattened BTreeMap capturing every other member as a FieldValue.
The derived deserializer matches known members (duplicates are an error),
buffers every unknown member in order, and finally builds the map by
inserting the buffered pairs left to right. -/

def keyPersistLower : Str := "persistent-ID".data
def keyUpdateOrder : Str := "UpdateOrder".data
def keyEnabled : Str := "Enabled".data

def dataFixedKeys : List Str := [keyID, keyPersistLower, keyUpdateOrder, keyEnabled]

structure DataC where
  id : Str
  persistent_id : Option Str
  update_order : FieldV Int
  enabled : FieldV Bool
  fields : List (Str × FieldValue)

def deFieldInt : Bson → Except String (FieldV Int) :=
  deFieldV deBInt (.error "missing field Data")

def deFieldBool : Bson → Except String (FieldV Bool) :=
  deFieldV deBBool (.error "missing field Data")

def deFieldOptStr : Bson → Except String (FieldV (Option Str)) :=
  deFieldV deBOptStr (.ok none)

def finData (idAcc : Option Str) (pidAcc : Option (Option Str)) (uoAcc : Option (FieldV Int))
    (enAcc : Option (FieldV Bool)) (tailAcc : List (Str × Bson)) : Except String DataC :=
  match idAcc with
  | none => .error "missing field ID"
  | some i =>
    match uoAcc with
    | none => .error "missing field UpdateOrder"
    | some uo =>
      match enAcc with
      | none => .error "missing field Enabled"
      | some en =>
        .ok ⟨i, pidAcc.getD none, uo, en,
          mapOfList (tailAcc.map (fun kv => (kv.1, fieldValueFromBson kv.2)))⟩

def goData : List (Str × Bson) → Option Str → Option (Option Str) → Option (FieldV Int) →
    Option (FieldV Bool) → List (Str × Bson) → Except String DataC
  | [], idAcc, pidAcc, uoAcc, enAcc, tailAcc => finData idAcc pidAcc uoAcc enAcc tailAcc
  | (k, v) :: rest, idAcc, pidAcc, uoAcc, enAcc, tailAcc =>
    if k = keyID then
      slotStep idAcc (deBStr v)
        (fun s => goData rest (some s) pidAcc uoAcc enAcc tailAcc) "duplicate field ID"
    else if k = keyPersistLower then
      slotStep pidAcc (deBOptStr v)
        (fun p => goData rest idAcc (some p) uoAcc enAcc tailAcc) "duplicate field persistent-ID"
    else if k = keyUpdateOrder then
      slotStep uoAcc (deFieldInt v)
        (fun u => goData rest idAcc pidAcc (some u) enAcc tailAcc) "duplicate field UpdateOrder"
    else if k = keyEnabled then
      slotStep enAcc (deFieldBool v)
        (fun en2 => goData rest idAcc pidAcc uoAcc (some en2) tailAcc) "duplicate field Enabled"
    else goData rest idAcc pidAcc uoAcc enAcc (tailAcc ++ [(k, v)])

def deData : Bson → Except String DataC
  | .doc entries => goData entries none none none none []
  | _ => .error "invalid type: expected document"

def serData (d : DataC) : Bson :=
  .doc ([(keyID, .str d.id), (keyPersistLower, serOptStr d.persistent_id),
    (keyUpdateOrder, serFieldV Bson.int64 d.update_order),
    (keyEnabled, serFieldV Bson.bool d.enabled)] ++
    d.fields.map (fun kv => (kv.1, serFV kv.2)))

/-- What a successful Data projection guarantees about its flattened map:
the keys are strictly sorted (a BTreeMap), none of them is a fixed member
name, and every value is in the image profile of the FieldValue
projection. -/
def DataWf (d : DataC) : Prop :=
  sortedKeys d.fields ∧ ∀ kv ∈ d.fields, kv.1 ∉ dataFixedKeys ∧ WfFV kv.2

theorem goData_wf :
    ∀ (entries : List (Str × Bson)) (idA : Option Str) (pidA : Option (Option Str))
      (uoA : Option (FieldV Int)) (enA : Option (FieldV Bool)) (tailA : List (Str × Bson))
      (d : DataC), (∀ kv ∈ tailA, kv.1 ∉ dataFixedKeys) →
      goData entries idA pidA uoA enA tailA = .ok d → DataWf d := by
  intro entries
  induction entries with
  | nil =>
    intro idA pidA uoA enA tailA d htail hgo
    rw [goData] at hgo
    match idA with
    | none => exact Except.noConfusion hgo
    | some i =>
    match uoA with
    | none => exact Except.noConfusion hgo
    | some uo =>
    match enA with
    | none => exact Except.noConfusion hgo
    | some en =>
    have hd : d = ⟨i, pidA.getD none, uo, en,
        mapOfList (tailA.map (fun kv => (kv.1, fieldValueFromBson kv.2)))⟩ :=
      (Except.ok.inj hgo).symm
    subst hd
    refine ⟨mapOfList_sorted _, ?_⟩
    intro kv hkv
    have hmem := mem_mapOfList _ kv hkv
    rcases List.mem_map.mp hmem with ⟨kv0, hkv0, hEq⟩
    constructor
    · rw [← hEq]
      exact htail kv0 hkv0
    · rw [← hEq]
      exact fv_wf kv0.2
  | cons e rest ih =>
    intro idA pidA uoA enA tailA d htail hgo
    obtain ⟨k, v⟩ := e
    rw [goData] at hgo
    split_ifs at hgo with h1 h2 h3 h4
    · obtain ⟨-, s, -, hcont⟩ := slotStep_inv _ _ _ _ _ hgo
      exact ih _ _ _ _ _ _ htail hcont
    · obtain ⟨-, p, -, hcont⟩ := slotStep_inv _ _ _ _ _ hgo
      exact ih _ _ _ _ _ _ htail hcont
    · obtain ⟨-, u, -, hcont⟩ := slotStep_inv _ _ _ _ _ hgo
      exact ih _ _ _ _ _ _ htail hcont
    · obtain ⟨-, en2, -, hcont⟩ := slotStep_inv _ _ _ _ _ hgo
      exact ih _ _ _ _ _ _ htail hcont
    · refine ih _ _ _ _ _ _ ?_ hgo
      intro kv hkv
      rcases List.mem_append.mp hkv with hkv2 | hkv2
      · exact htail kv hkv2
      · have : kv = (k, v) := List.mem_singleton.mp hkv2
        rw [this]
        simp only [dataFixedKeys, List.mem_cons, List.not_mem_nil]
        push_neg
        exact ⟨h1, h2, h3, h4, not_false⟩

theorem deData_wf (b : Bson) (d : DataC) (h : deData b = .ok d) : DataWf d := by
  match b with
  | .doc entries =>
    rw [deData] at h
    exact goData_wf entries none none none none [] d (by intro kv hkv; exact absurd hkv (List.not_mem_nil kv)) h
  | .str s => exact Except.noConfusion h
  | .bool v => exact Except.noConfusion h
  | .int32 n => exact Except.noConfusion h
  | .int64 n => exact Except.noConfusion h
  | .double x => exact Except.noConfusion h
  | .null => exact Except.noConfusion h
  | .array xs => exact Except.noConfusion h

theorem goData_tail_skip :
    ∀ (l : List (Str × FieldValue)), (∀ kv ∈ l, kv.1 ∉ dataFixedKeys) →
      ∀ idA pidA uoA enA tailA,
        goData (l.map (fun kv => (kv.1, serFV kv.2))) idA pidA uoA enA tailA =
          finData idA pidA uoA enA (tailA ++ l.map (fun kv => (kv.1, serFV kv.2))) := by
  intro l
  induction l with
  | nil =>
    intro _ idA pidA uoA enA tailA
    rw [List.map_nil, List.append_nil]
    rfl
  | cons kv0 rest ih =>
    intro hl idA pidA uoA enA tailA
    obtain ⟨k, v⟩ := kv0
    have hk : k ∉ dataFixedKeys := by
      have := hl (k, v) (List.mem_cons_self _ _)
      exact this
    simp only [dataFixedKeys, List.mem_cons, List.not_mem_nil, or_false] at hk
    push_neg at hk
    rw [List.map_cons, goData, if_neg hk.1, if_neg hk.2.1, if_neg hk.2.2.1, if_neg hk.2.2.2]
    rw [ih (fun kv hkv => hl kv (List.mem_cons_of_mem _ hkv)) idA pidA uoA enA
      (tailA ++ [(k, serFV v)])]
    rw [List.append_assoc]
    rfl

theorem deFieldInt_ser (f : FieldV Int) :
    deFieldInt (serFieldV Bson.int64 f) = .ok f :=
  deFieldV_ser deBInt (.error "missing field Data") Bson.int64 f rfl

theorem deFieldBool_ser (f : FieldV Bool) :
    deFieldBool (serFieldV Bson.bool f) = .ok f :=
  deFieldV_ser deBBool (.error "missing field Data") Bson.bool f rfl

theorem deFieldOptStr_ser (f : FieldV (Option Str)) :
    deFieldOptStr (serFieldV serOptStr f) = .ok f :=
  deFieldV_ser deBOptStr (.ok none) serOptStr f (deBOptStr_ser f.data)

theorem deData_roundtrip (d : DataC) (h : DataWf d) : deData (serData d) = .ok d := by
  obtain ⟨hsorted, hvals⟩ := h
  have hstart : deData (serData d) = goData
      ((keyID, Bson.str d.id) :: (keyPersistLower, serOptStr d.persistent_id) ::
        (keyUpdateOrder, serFieldV Bson.int64 d.update_order) ::
        (keyEnabled, serFieldV Bson.bool d.enabled) ::
        d.fields.map (fun kv => (kv.1, serFV kv.2)))
      none none none none [] := rfl
  rw [hstart]
  rw [goData, if_pos rfl, slotStep_none_ok (deBStr (Bson.str d.id)) d.id _ _ rfl]
  rw [goData, if_neg (by decide), if_pos rfl,
    slotStep_none_ok _ d.persistent_id _ _ (deBOptStr_ser _)]
  rw [goData, if_neg (by decide), if_neg (by decide), if_pos rfl,
    slotStep_none_ok _ d.update_order _ _ (deFieldInt_ser _)]
  rw [goData, if_neg (by decide), if_neg (by decide), if_neg (by decide), if_pos rfl,
    slotStep_none_ok _ d.enabled _ _ (deFieldBool_ser _)]
  rw [goData_tail_skip d.fields (fun kv hkv => (hvals kv hkv).1) _ _ _ _ []]
  simp only [List.nil_append]
  have hfin : finData (some d.id) (some d.persistent_id) (some d.update_order)
      (some d.enabled) (d.fields.map (fun kv => (kv.1, serFV kv.2))) =
      .ok ⟨d.id, d.persistent_id, d.update_order, d.enabled,
        mapOfList ((d.fields.map (fun kv => (kv.1, serFV kv.2))).map
          (fun kv => (kv.1, fieldValueFromBson kv.2)))⟩ := rfl
  rw [hfin]
  have hmap : (d.fields.map (fun kv => (kv.1, serFV kv.2))).map
      (fun kv => (kv.1, fieldValueFromBson kv.2)) = d.fields := by
    rw [List.map_map]
    have hpt : ∀ kv ∈ d.fields,
        ((fun kv : Str × Bson => (kv.1, fieldValueFromBson kv.2)) ∘
          (fun kv : Str × FieldValue => (kv.1, serFV kv.2))) kv = kv := by
      intro kv hkv
      show (kv.1, fieldValueFromBson (serFV kv.2)) = kv
      rw [fv_stable kv.2 (hvals kv hkv).2]
    calc (d.fields.map _) = d.fields.map id := List.map_congr_left hpt
      _ = d.fields := List.map_id d.fields
  rw [hmap, mapOfList_sorted_id d.fields hsorted]

/-! ## Component (backup.rs lines 611-617) -/

def keyType : Str := "Type".data

structure Component where
  cs_type : Str
  data : DataC

def finComp (tyAcc : Option Str) (dataAcc : Option DataC) : Except String Component :=
  match tyAcc with
  | none => .error "missing field Type"
  | some t =>
    match dataAcc with
    | none => .error "missing field Data"
    | some dd => .ok ⟨t, dd⟩

def goComp : List (Str × Bson) → Option Str → Option DataC → Except String Component
  | [], tyAcc, dataAcc => finComp tyAcc dataAcc
  | (k, v) :: rest, tyAcc, dataAcc =>
    if k = keyType then
      slotStep tyAcc (deBStr v) (fun t => goComp rest (some t) dataAcc) "duplicate field Type"
    else if k = keyData then
      slotStep dataAcc (deData v) (fun dd => goComp rest tyAcc (some dd)) "duplicate field Data"
    else goComp rest tyAcc dataAcc

def deComp : Bson → Except String Component
  | .doc entries => goComp entries none none
  | _ => .error "invalid type: expected document"

def serComp (c : Component) : Bson :=
  .doc [(keyType, .str c.cs_type), (keyData, serData c.data)]

def CompWf (c : Component) : Prop := DataWf c.data

theorem goComp_wf :
    ∀ (entries : List (Str × Bson)) (tyA : Option Str) (dA : Option DataC) (c : Component),
      (∀ dd, dA = some dd → DataWf dd) → goComp entries tyA dA = .ok c → CompWf c := by
  intro entries
  induction entries with
  | nil =>
    intro tyA dA c hdA hgo
    rw [goComp] at hgo
    match tyA with
    | none => exact Except.noConfusion hgo
    | some t =>
    match dA with
    | none => exact Except.noConfusion hgo
    | some dd =>
    have : (⟨t, dd⟩ : Component) = c := Except.ok.inj hgo
    rw [← this]
    exact hdA dd rfl
  | cons e rest ih =>
    intro tyA dA c hdA hgo
    obtain ⟨k, v⟩ := e
    rw [goComp] at hgo
    split_ifs at hgo with h1 h2
    · obtain ⟨-, t, -, hcont⟩ := slotStep_inv _ _ _ _ _ hgo
      exact ih _ _ _ hdA hcont
    · obtain ⟨-, dd, hdd, hcont⟩ := slotStep_inv _ _ _ _ _ hgo
      refine ih _ _ _ ?_ hcont
      intro dd2 hdd2
      rw [← Option.some_inj.mp hdd2]
      exact deData_wf v dd hdd
    · exact ih _ _ _ hdA hgo

theorem deComp_wf (b : Bson) (c : Component) (h : deComp b = .ok c) : CompWf c := by
  match b with
  | .doc entries =>
    rw [deComp] at h
    exact goComp_wf entries none none c (fun dd hdd => Option.noConfusion hdd) h
  | .str s => exact Except.noConfusion h
  | .bool v => exact Except.noConfusion h
  | .int32 n => exact Except.noConfusion h
  | .int64 n => exact Except.noConfusion h
  | .double x => exact Except.noConfusion h
  | .null => exact Except.noConfusion h
  | .array xs => exact Except.noConfusion h

theorem deComp_roundtrip (c : Component) (h : CompWf c) : deComp (serComp c) = .ok c := by
  have hstart : deComp (serComp c) =
      goComp [(keyType, Bson.str c.cs_type), (keyData, serData c.data)] none none := rfl
  rw [hstart]
  rw [goComp, if_pos rfl, slotStep_none_ok (deBStr (Bson.str c.cs_type)) c.cs_type _ _ rfl]
  rw [goComp, if_neg (by decide), if_pos rfl,
    slotStep_none_ok _ c.data _ _ (deData_roundtrip c.data h)]
  rfl

def deCompListAux : List Bson → Except String (List Component)
  | [] => .ok []
  | x :: xs =>
    match deComp x with
    | .error e => .error e
    | .ok c =>
      match deCompListAux xs with
      | .error e => .error e
      | .ok cs => .ok (c :: cs)

def deCompList : Bson → Except String (List Component)
  | .array xs => deCompListAux xs
  | _ => .error "invalid type: expected array"

def serCompList (cs : List Component) : Bson :=
  .array (cs.map serComp)

theorem deCompListAux_wf :
    ∀ (xs : List Bson) (cs : List Component), deCompListAux xs = .ok cs →
      ∀ c ∈ cs, CompWf c := by
  intro xs
  induction xs with
  | nil =>
    intro cs h c hc
    rw [deCompListAux] at h
    rw [← Except.ok.inj h] at hc
    exact absurd hc (List.not_mem_nil c)
  | cons x rest ih =>
    intro cs h c hc
    rw [deCompListAux] at h
    match hx : deComp x with
    | .error e =>
      rw [hx] at h
      exact Except.noConfusion h
    | .ok c0 =>
      rw [hx] at h
      match hrest : deCompListAux rest with
      | .error e =>
        rw [hrest] at h
        exact Except.noConfusion h
      | .ok cs0 =>
        rw [hrest] at h
        rw [← Except.ok.inj h] at hc
        rcases List.mem_cons.mp hc with h2 | h2
        · rw [h2]
          exact deComp_wf x c0 hx
        · exact ih cs0 hrest c h2

theorem deCompListAux_roundtrip :
    ∀ cs : List Component, (∀ c ∈ cs, CompWf c) →
      deCompListAux (cs.map serComp) = .ok cs := by
  intro cs
  induction cs with
  | nil =>
    intro _
    rfl
  | cons c rest ih =>
    intro h
    rw [List.map_cons, deCompListAux,
      deComp_roundtrip c (h c (List.mem_cons_self _ _)),
      ih (fun c2 hc2 => h c2 (List.mem_cons_of_mem _ hc2))]

theorem deCompList_ser (cs : List Component) (h : ∀ c ∈ cs, CompWf c) :
    deCompList (serCompList cs) = .ok cs := by
  have hstart : deCompList (serCompList cs) = deCompListAux (cs.map serComp) := rfl
  rw [hstart, deCompListAux_roundtrip cs h]

theorem deCompList_wf (b : Bson) (cs : List Component) (h : deCompList b = .ok cs) :
    ∀ c ∈ cs, CompWf c := by
  match b with
  | .array xs =>
    rw [deCompList] at h
    exact deCompListAux_wf xs cs h
  | .str s => exact Except.noConfusion h
  | .bool v => exact Except.noConfusion h
  | .int32 n => exact Except.noConfusion h
  | .int64 n => exact Except.noConfusion h
  | .double x => exact Except.noConfusion h
  | .null => exact Except.noConfusion h
  | .doc kvs => exact Except.noConfusion h

def deFieldComps : Bson → Except String (FieldV (List Component)) :=
  deFieldV deCompList (.error "missing field Data")

theorem deFieldComps_ser (f : FieldV (List Component)) (h : ∀ c ∈ f.data, CompWf c) :
    deFieldComps (serFieldV serCompList f) = .ok f :=
  deFieldV_ser deCompList (.error "missing field Data") serCompList f (deCompList_ser f.data h)

def deFieldV3 : Bson → Except String (FieldV (F64 × F64 × F64)) :=
  deFieldV deV3 (.error "missing field Data")

def deFieldV4 : Bson → Except String (FieldV (F64 × F64 × F64 × F64)) :=
  deFieldV deV4 (.error "missing field Data")

theorem deFieldV3_ser (f : FieldV (F64 × F64 × F64)) :
    deFieldV3 (serFieldV serV3 f) = .ok f :=
  deFieldV_ser deV3 (.error "missing field Data") serV3 f (deV3_ser f.data)

theorem deFieldV4_ser (f : FieldV (F64 × F64 × F64 × F64)) :
    deFieldV4 (serFieldV serV4 f) = .ok f :=
  deFieldV_ser deV4 (.error "missing field Data") serV4 f (deV4_ser f.data)

/-! ## Slot (backup.rs lines 592-609)

Slot is the recursive tree node.  The derived deserializer walks the
document entries in order, matching the twelve wire names with duplicate
detection, ignoring unknown members, and finally requiring every member
except Persistent-ID, which is an Option and falls back to None when
absent.  The recursion through Children is organized as a structural
recursion on a fuel counter that decreases once per nested Slot document;
the top-level entry point supplies the size of the input as fuel, which
always suffices because every nested Slot document is a strict subterm of
the input. -/

def keyComponents : Str := "Components".data
def keyPersistCap : Str := "Persistent-ID".data
def keyName : Str := "Name".data
def keyTag : Str := "Tag".data
def keyActive : Str := "Active".data
def keyPosition : Str := "Position".data
def keyRotation : Str := "Rotation".data
def keyScale : Str := "Scale".data
def keyOrderOffset : Str := "OrderOffset".data
def keyParentReference : Str := "ParentReference".data
def keyChildren : Str := "Children".data

inductive Slot where
  | mk (id : Str) (components : FieldV (List Component)) (persistent_id : Option Str)
      (name : FieldV (Option Str)) (tag : FieldV (Option Str)) (active : FieldV Bool)
      (position : FieldV (F64 × F64 × F64)) (rotation : FieldV (F64 × F64 × F64 × F64))
      (scale : FieldV (F64 × F64 × F64)) (order_offset : FieldV Int)
      (parent_reference : Str) (children : List Slot)

def finSlot (idA : Option Str) (compA : Option (FieldV (List Component))) (pidA : Option (Option Str)) (nameA : Option (FieldV (Option Str))) (tagA : Option (FieldV (Option Str))) (actA : Option (FieldV Bool)) (posA : Option (FieldV (F64 × F64 × F64))) (rotA : Option (FieldV (F64 × F64 × F64 × F64))) (scaA : Option (FieldV (F64 × F64 × F64))) (ordA : Option (FieldV Int)) (prfA : Option Str) (chdA : Option (List Slot)) : Except String Slot :=
  match idA with
  | none => .error "missing field ID"
  | some id =>
  match compA with
  | none => .error "missing field Components"
  | some components =>
  match nameA with
  | none => .error "missing field Name"
  | some name =>
  match tagA with
  | none => .error "missing field Tag"
  | some tag =>
  match actA with
  | none => .error "missing field Active"
  | some active =>
  match posA with
  | none => .error "missing field Position"
  | some position =>
  match rotA with
  | none => .error "missing field Rotation"
  | some rotation =>
  match scaA with
  | none => .error "missing field Scale"
  | some scale =>
  match ordA with
  | none => .error "missing field OrderOffset"
  | some order_offset =>
  match prfA with
  | none => .error "missing field ParentReference"
  | some parent_reference =>
  match chdA with
  | none => .error "missing field Children"
  | some children =>
    .ok (.mk id components (pidA.getD none) name tag active position rotation scale
      order_offset parent_reference children)

def deSlotListG (deS : Bson → Except String Slot) : List Bson → Except String (List Slot)
  | [] => .ok []
  | x :: xs =>
    match deS x with
    | .error e => .error e
    | .ok s =>
      match deSlotListG deS xs with
      | .error e => .error e
      | .ok ss => .ok (s :: ss)

def deChildrenG (deS : Bson → Except String Slot) : Bson → Except String (List Slot)
  | .array xs => deSlotListG deS xs
  | _ => .error "invalid type: expected array"

def goSlotG (deS : Bson → Except String Slot) :
    List (Str × Bson) → Option Str → Option (FieldV (List Component)) → Option (Option Str) → Option (FieldV (Option Str)) → Option (FieldV (Option Str)) → Option (FieldV Bool) → Option (FieldV (F64 × F64 × F64)) → Option (FieldV (F64 × F64 × F64 × F64)) → Option (FieldV (F64 × F64 × F64)) → Option (FieldV Int) → Option Str → Option (List Slot) → Except String Slot
  | [], idA, compA, pidA, nameA, tagA, actA, posA, rotA, scaA, ordA, prfA, chdA => finSlot idA compA pidA nameA tagA actA posA rotA scaA ordA prfA chdA
  | (k, v) :: rest, idA, compA, pidA, nameA, tagA, actA, posA, rotA, scaA, ordA, prfA, chdA =>
    if k = keyID then
      slotStep idA (deBStr v) (fun x => goSlotG deS rest (some x) compA pidA nameA tagA actA posA rotA scaA ordA prfA chdA)
        "duplicate field"
    else if k = keyComponents then
      slotStep compA (deFieldComps v) (fun x => goSlotG deS rest idA (some x) pidA nameA tagA actA posA rotA scaA ordA prfA chdA)
        "duplicate field"
    else if k = keyPersistCap then
      slotStep pidA (deBOptStr v) (fun x => goSlotG deS rest idA compA (some x) nameA tagA actA posA rotA scaA ordA prfA chdA)
        "duplicate field"
    else if k = keyName then
      slotStep nameA (deFieldOptStr v) (fun x => goSlotG deS rest idA compA pidA (some x) tagA actA posA rotA scaA ordA prfA chdA)
        "duplicate field"
    else if k = keyTag then
      slotStep tagA (deFieldOptStr v) (fun x => goSlotG deS rest idA compA pidA nameA (some x) actA posA rotA scaA ordA prfA chdA)
        "duplicate field"
    else if k = keyActive then
      slotStep actA (deFieldBool v) (fun x => goSlotG deS rest idA compA pidA nameA tagA (some x) posA rotA scaA ordA prfA chdA)
        "duplicate field"
    else if k = keyPosition then
      slotStep posA (deFieldV3 v) (fun x => goSlotG deS rest idA compA pidA nameA tagA actA (some x) rotA scaA ordA prfA chdA)
        "duplicate field"
    else if k = keyRotation then
      slotStep rotA (deFieldV4 v) (fun x => goSlotG deS rest idA compA pidA nameA tagA actA posA (some x) scaA ordA prfA chdA)
        "duplicate field"
    else if k = keyScale then
      slotStep scaA (deFieldV3 v) (fun x => goSlotG deS rest idA compA pidA nameA tagA actA posA rotA (some x) ordA prfA chdA)
        "duplicate field"
    else if k = keyOrderOffset then
      slotStep ordA (deFieldInt v) (fun x => goSlotG deS rest idA compA pidA nameA tagA actA posA rotA scaA (some x) prfA chdA)
        "duplicate field"
    else if k = keyParentReference then
      slotStep prfA (deBStr v) (fun x => goSlotG deS rest idA compA pidA nameA tagA actA posA rotA scaA ordA (some x) chdA)
        "duplicate field"
    else if k = keyChildren then
      slotStep chdA (deChildrenG deS v) (fun x => goSlotG deS rest idA compA pidA nameA tagA actA posA rotA scaA ordA prfA (some x))
        "duplicate field"
    else goSlotG deS rest idA compA pidA nameA tagA actA posA rotA scaA ordA prfA chdA

def deSlotF : Nat → Bson → Except String Slot
  | 0, _ => .error "recursion depth limit"
  | fuel + 1, b =>
    match b with
    | .doc entries => goSlotG (fun b2 => deSlotF fuel b2) entries none none none none none none none none none none none none
    | _ => .error "invalid type: expected document"

mutual

/-- A computable size measure on BSON values, used as the fuel supplied to
the Slot deserializer (the automatically generated sizeOf is not
executable for this nested inductive). -/
def bsonSize : Bson → Nat
  | .array xs => 1 + bsonListSize xs
  | .doc kvs => 1 + bsonEntriesSize kvs
  | _ => 1
termination_by b => sizeOf b

def bsonListSize : List Bson → Nat
  | [] => 0
  | x :: xs => bsonSize x + bsonListSize xs + 1
termination_by l => sizeOf l

def bsonEntriesSize : List (Str × Bson) → Nat
  | [] => 0
  | (_, v) :: rest => bsonSize v + bsonEntriesSize rest + 1
termination_by l => sizeOf l

end

def deSlot (b : Bson) : Except String Slot :=
  deSlotF (bsonSize b) b

mutual

def serSlot : Slot → Bson
  | .mk id components persistent_id name tag active position rotation scale order_offset
      parent_reference children =>
    .doc [(keyID, .str id), (keyComponents, serFieldV serCompList components),
      (keyPersistCap, serOptStr persistent_id), (keyName, serFieldV serOptStr name),
      (keyTag, serFieldV serOptStr tag), (keyActive, serFieldV Bson.bool active),
      (keyPosition, serFieldV serV3 position), (keyRotation, serFieldV serV4 rotation),
      (keyScale, serFieldV serV3 scale),
      (keyOrderOffset, serFieldV Bson.int64 order_offset),
      (keyParentReference, .str parent_reference), (keyChildren, .array (serSlotList children))]
termination_by s => sizeOf s

def serSlotList : List Slot → List Bson
  | [] => []
  | s :: ss => serSlot s :: serSlotList ss
termination_by l => sizeOf l

end

mutual

/-- Depth of nesting of a Slot tree: the number of Slot documents on the
deepest path.  Used only as a fuel bound in proofs. -/
def slotDepth : Slot → Nat
  | .mk _ _ _ _ _ _ _ _ _ _ _ children => 1 + slotListDepth children
termination_by s => sizeOf s

def slotListDepth : List Slot → Nat
  | [] => 0
  | s :: ss => max (slotDepth s) (slotListDepth ss)
termination_by l => sizeOf l

end

/-! ## Well-formedness and stability of the Slot projection -/

inductive SlotWf : Slot → Prop where
  | mk {id : Str} {components : FieldV (List Component)} {persistent_id : Option Str}
      {name tag : FieldV (Option Str)} {active : FieldV Bool}
      {position : FieldV (F64 × F64 × F64)} {rotation : FieldV (F64 × F64 × F64 × F64)}
      {scale : FieldV (F64 × F64 × F64)} {order_offset : FieldV Int}
      {parent_reference : Str} {children : List Slot} :
      (∀ c ∈ components.data, CompWf c) →
      (∀ ch ∈ children, SlotWf ch) →
      SlotWf (.mk id components persistent_id name tag active position rotation scale
        order_offset parent_reference children)

theorem deSlotListG_wf (deS : Bson → Except String Slot)
    (hdeS : ∀ b s, deS b = .ok s → SlotWf s) :
    ∀ (xs : List Bson) (cs : List Slot), deSlotListG deS xs = .ok cs →
      ∀ ch ∈ cs, SlotWf ch := by
  intro xs
  induction xs with
  | nil =>
    intro cs h ch hch
    rw [deSlotListG] at h
    rw [← Except.ok.inj h] at hch
    exact absurd hch (List.not_mem_nil ch)
  | cons x rest ih =>
    intro cs h ch hch
    rw [deSlotListG] at h
    match hx : deS x with
    | .error e =>
      rw [hx] at h
      exact Except.noConfusion h
    | .ok s0 =>
      rw [hx] at h
      match hrest : deSlotListG deS rest with
      | .error e =>
        rw [hrest] at h
        exact Except.noConfusion h
      | .ok cs0 =>
        rw [hrest] at h
        rw [← Except.ok.inj h] at hch
        rcases List.mem_cons.mp hch with h2 | h2
        · rw [h2]
          exact hdeS x s0 hx
        · exact ih cs0 hrest ch h2

theorem deChildrenG_wf (deS : Bson → Except String Slot)
    (hdeS : ∀ b s, deS b = .ok s → SlotWf s) (v : Bson) (cs : List Slot)
    (h : deChildrenG deS v = .ok cs) : ∀ ch ∈ cs, SlotWf ch := by
  match v with
  | .array xs =>
    rw [deChildrenG] at h
    exact deSlotListG_wf deS hdeS xs cs h
  | .str s => exact Except.noConfusion h
  | .bool b2 => exact Except.noConfusion h
  | .int32 n => exact Except.noConfusion h
  | .int64 n => exact Except.noConfusion h
  | .double x => exact Except.noConfusion h
  | .null => exact Except.noConfusion h
  | .doc kvs => exact Except.noConfusion h

theorem goSlotG_wf (deS : Bson → Except String Slot)
    (hdeS : ∀ b s, deS b = .ok s → SlotWf s) :
    ∀ (entries : List (Str × Bson)) (idA : Option Str) (compA : Option (FieldV (List Component))) (pidA : Option (Option Str)) (nameA : Option (FieldV (Option Str))) (tagA : Option (FieldV (Option Str))) (actA : Option (FieldV Bool)) (posA : Option (FieldV (F64 × F64 × F64))) (rotA : Option (FieldV (F64 × F64 × F64 × F64))) (scaA : Option (FieldV (F64 × F64 × F64))) (ordA : Option (FieldV Int)) (prfA : Option Str) (chdA : Option (List Slot)) (s : Slot),
      (∀ f, compA = some f → ∀ c ∈ f.data, CompWf c) →
      (∀ cs, chdA = some cs → ∀ ch ∈ cs, SlotWf ch) →
      goSlotG deS entries idA compA pidA nameA tagA actA posA rotA scaA ordA prfA chdA = .ok s → SlotWf s := by
  intro entries
  induction entries with
  | nil =>
    intro idA compA pidA nameA tagA actA posA rotA scaA ordA prfA chdA s hcomp hchd hgo
    rw [goSlotG] at hgo
    match idA with
    | none => exact Except.noConfusion hgo
    | some id0 =>
    match compA with
    | none => exact Except.noConfusion hgo
    | some components =>
    match nameA with
    | none => exact Except.noConfusion hgo
    | some name =>
    match tagA with
    | none => exact Except.noConfusion hgo
    | some tag =>
    match actA with
    | none => exact Except.noConfusion hgo
    | some active =>
    match posA with
    | none => exact Except.noConfusion hgo
    | some position =>
    match rotA with
    | none => exact Except.noConfusion hgo
    | some rotation =>
    match scaA with
    | none => exact Except.noConfusion hgo
    | some scale =>
    match ordA with
    | none => exact Except.noConfusion hgo
    | some order_offset =>
    match prfA with
    | none => exact Except.noConfusion hgo
    | some parent_reference =>
    match chdA with
    | none => exact Except.noConfusion hgo
    | some children =>
    have hs : Slot.mk id0 components (pidA.getD none) name tag active position rotation scale
        order_offset parent_reference children = s := Except.ok.inj hgo
    rw [← hs]
    exact SlotWf.mk (hcomp components rfl) (hchd children rfl)
  | cons e rest ih =>
    intro idA compA pidA nameA tagA actA posA rotA scaA ordA prfA chdA s hcomp hchd hgo
    obtain ⟨k, v⟩ := e
    rw [goSlotG] at hgo
    by_cases h1 : k = keyID
    · rw [if_pos h1] at hgo
      obtain ⟨-, x, hx, hcont⟩ := slotStep_inv _ _ _ _ _ hgo
      exact ih _ _ _ _ _ _ _ _ _ _ _ _ _ hcomp hchd hcont
    · rw [if_neg h1] at hgo
      by_cases h2 : k = keyComponents
      · rw [if_pos h2] at hgo
        obtain ⟨-, x, hx, hcont⟩ := slotStep_inv _ _ _ _ _ hgo
        refine ih _ _ _ _ _ _ _ _ _ _ _ _ _ ?_ hchd hcont
        intro f hf
        rw [← Option.some_inj.mp hf]
        rcases deFieldV_inv _ _ _ _ hx with ⟨v2, hv2⟩ | hmiss
        · exact deCompList_wf v2 x.data hv2
        · exact absurd hmiss (by intro hc; exact Except.noConfusion hc)
      · rw [if_neg h2] at hgo
        by_cases h3 : k = keyPersistCap
        · rw [if_pos h3] at hgo
          obtain ⟨-, x, hx, hcont⟩ := slotStep_inv _ _ _ _ _ hgo
          exact ih _ _ _ _ _ _ _ _ _ _ _ _ _ hcomp hchd hcont
        · rw [if_neg h3] at hgo
          by_cases h4 : k = keyName
          · rw [if_pos h4] at hgo
            obtain ⟨-, x, hx, hcont⟩ := slotStep_inv _ _ _ _ _ hgo
            exact ih _ _ _ _ _ _ _ _ _ _ _ _ _ hcomp hchd hcont
          · rw [if_neg h4] at hgo
            by_cases h5 : k = keyTag
            · rw [if_pos h5] at hgo
              obtain ⟨-, x, hx, hcont⟩ := slotStep_inv _ _ _ _ _ hgo
              exact ih _ _ _ _ _ _ _ _ _ _ _ _ _ hcomp hchd hcont
            · rw [if_neg h5] at hgo
              by_cases h6 : k = keyActive
              · rw [if_pos h6] at hgo
                obtain ⟨-, x, hx, hcont⟩ := slotStep_inv _ _ _ _ _ hgo
                exact ih _ _ _ _ _ _ _ _ _ _ _ _ _ hcomp hchd hcont
              · rw [if_neg h6] at hgo
                by_cases h7 : k = keyPosition
                · rw [if_pos h7] at hgo
                  obtain ⟨-, x, hx, hcont⟩ := slotStep_inv _ _ _ _ _ hgo
                  exact ih _ _ _ _ _ _ _ _ _ _ _ _ _ hcomp hchd hcont
                · rw [if_neg h7] at hgo
                  by_cases h8 : k = keyRotation
                  · rw [if_pos h8] at hgo
                    obtain ⟨-, x, hx, hcont⟩ := slotStep_inv _ _ _ _ _ hgo
                    exact ih _ _ _ _ _ _ _ _ _ _ _ _ _ hcomp hchd hcont
                  · rw [if_neg h8] at hgo
                    by_cases h9 : k = keyScale
                    · rw [if_pos h9] at hgo
                      obtain ⟨-, x, hx, hcont⟩ := slotStep_inv _ _ _ _ _ hgo
                      exact ih _ _ _ _ _ _ _ _ _ _ _ _ _ hcomp hchd hcont
                    · rw [if_neg h9] at hgo
                      by_cases h10 : k = keyOrderOffset
                      · rw [if_pos h10] at hgo
                        obtain ⟨-, x, hx, hcont⟩ := slotStep_inv _ _ _ _ _ hgo
                        exact ih _ _ _ _ _ _ _ _ _ _ _ _ _ hcomp hchd hcont
                      · rw [if_neg h10] at hgo
                        by_cases h11 : k = keyParentReference
                        · rw [if_pos h11] at hgo
                          obtain ⟨-, x, hx, hcont⟩ := slotStep_inv _ _ _ _ _ hgo
                          exact ih _ _ _ _ _ _ _ _ _ _ _ _ _ hcomp hchd hcont
                        · rw [if_neg h11] at hgo
                          by_cases h12 : k = keyChildren
                          · rw [if_pos h12] at hgo
                            obtain ⟨-, x, hx, hcont⟩ := slotStep_inv _ _ _ _ _ hgo
                            refine ih _ _ _ _ _ _ _ _ _ _ _ _ _ hcomp ?_ hcont
                            intro cs hcs
                            rw [← Option.some_inj.mp hcs]
                            exact deChildrenG_wf deS hdeS v x hx
                          · rw [if_neg h12] at hgo
                            exact ih _ _ _ _ _ _ _ _ _ _ _ _ _ hcomp hchd hgo

theorem deSlotF_wf : ∀ (fuel : Nat) (b : Bson) (s : Slot), deSlotF fuel b = .ok s → SlotWf s := by
  intro fuel
  induction fuel with
  | zero =>
    intro b s h
    rw [deSlotF] at h
    exact Except.noConfusion h
  | succ f ih =>
    intro b s h
    match b with
    | .doc entries =>
      rw [deSlotF] at h
      exact goSlotG_wf _ (fun b2 s2 h2 => ih b2 s2 h2) entries
        none none none none none none none none none none none none s
        (fun f2 hf => Option.noConfusion hf) (fun cs hcs => Option.noConfusion hcs) h
    | .str s2 =>
      simp [deSlotF] at h
    | .bool b2 =>
      simp [deSlotF] at h
    | .int32 n =>
      simp [deSlotF] at h
    | .int64 n =>
      simp [deSlotF] at h
    | .double x =>
      simp [deSlotF] at h
    | .null =>
      simp [deSlotF] at h
    | .array xs =>
      simp [deSlotF] at h

theorem deSlot_wf (b : Bson) (s : Slot) (h : deSlot b = .ok s) : SlotWf s :=
  deSlotF_wf (bsonSize b) b s h

theorem deSlotListG_ser (deS : Bson → Except String Slot) :
    ∀ cs : List Slot, (∀ ch ∈ cs, deS (serSlot ch) = .ok ch) →
      deSlotListG deS (serSlotList cs) = .ok cs := by
  intro cs
  induction cs with
  | nil =>
    intro _
    rw [serSlotList]
    rfl
  | cons c rest ih =>
    intro h
    rw [serSlotList, deSlotListG, h c (List.mem_cons_self _ _),
      ih (fun c2 hc2 => h c2 (List.mem_cons_of_mem _ hc2))]

theorem slotDepth_pos (s : Slot) : 1 ≤ slotDepth s := by
  cases s
  rw [slotDepth]
  omega

theorem slotDepth_le_list : ∀ (cs : List Slot), ∀ ch ∈ cs, slotDepth ch ≤ slotListDepth cs := by
  intro cs
  induction cs with
  | nil =>
    intro ch hch
    exact absurd hch (List.not_mem_nil ch)
  | cons c rest ih =>
    intro ch hch
    rw [slotListDepth]
    rcases List.mem_cons.mp hch with h | h
    · rw [h]
      exact Nat.le_max_left _ _
    · exact Nat.le_trans (ih ch h) (Nat.le_max_right _ _)

theorem deSlotF_roundtrip :
    ∀ (fuel : Nat) (s : Slot), slotDepth s ≤ fuel → SlotWf s →
      deSlotF fuel (serSlot s) = .ok s := by
  intro fuel
  induction fuel with
  | zero =>
    intro s hd _
    exact absurd (Nat.le_trans (slotDepth_pos s) hd) (by omega)
  | succ f ih =>
    intro s hd hwf
    cases s with
    | mk id components persistent_id name tag active position rotation scale order_offset
        parent_reference children =>
    cases hwf with
    | mk hcomp hch =>
    rw [slotDepth] at hd
    have hchildren : deChildrenG (fun b2 => deSlotF f b2)
        (Bson.array (serSlotList children)) = .ok children := by
      rw [deChildrenG]
      apply deSlotListG_ser
      intro ch hch2
      have hd1 : slotDepth ch ≤ slotListDepth children := slotDepth_le_list children ch hch2
      exact ih ch (by omega) (hch ch hch2)
    rw [serSlot, deSlotF]
    rw [goSlotG, if_pos rfl,
      slotStep_none_ok (deBStr (Bson.str id)) id _ _ (show deBStr (Bson.str id) = Except.ok id from rfl)]
    rw [goSlotG, if_neg (by decide), if_pos rfl,
      slotStep_none_ok (deFieldComps (serFieldV serCompList components)) components _ _ (deFieldComps_ser components hcomp)]
    rw [goSlotG, if_neg (by decide), if_neg (by decide), if_pos rfl,
      slotStep_none_ok (deBOptStr (serOptStr persistent_id)) persistent_id _ _ (deBOptStr_ser persistent_id)]
    rw [goSlotG, if_neg (by decide), if_neg (by decide), if_neg (by decide), if_pos rfl,
      slotStep_none_ok (deFieldOptStr (serFieldV serOptStr name)) name _ _ (deFieldOptStr_ser name)]
    rw [goSlotG, if_neg (by decide), if_neg (by decide), if_neg (by decide), if_neg (by decide), if_pos rfl,
      slotStep_none_ok (deFieldOptStr (serFieldV serOptStr tag)) tag _ _ (deFieldOptStr_ser tag)]
    rw [goSlotG, if_neg (by decide), if_neg (by decide), if_neg (by decide), if_neg (by decide), if_neg (by decide), if_pos rfl,
      slotStep_none_ok (deFieldBool (serFieldV Bson.bool active)) active _ _ (deFieldBool_ser active)]
    rw [goSlotG, if_neg (by decide), if_neg (by decide), if_neg (by decide), if_neg (by decide), if_neg (by decide), if_neg (by decide), if_pos rfl,
      slotStep_none_ok (deFieldV3 (serFieldV serV3 position)) position _ _ (deFieldV3_ser position)]
    rw [goSlotG, if_neg (by decide), if_neg (by decide), if_neg (by decide), if_neg (by decide), if_neg (by decide), if_neg (by decide), if_neg (by decide), if_pos rfl,
      slotStep_none_ok (deFieldV4 (serFieldV serV4 rotation)) rotation _ _ (deFieldV4_ser rotation)]
    rw [goSlotG, if_neg (by decide), if_neg (by decide), if_neg (by decide), if_neg (by decide), if_neg (by decide), if_neg (by decide), if_neg (by decide), if_neg (by decide), if_pos rfl,
      slotStep_none_ok (deFieldV3 (serFieldV serV3 scale)) scale _ _ (deFieldV3_ser scale)]
    rw [goSlotG, if_neg (by decide), if_neg (by decide), if_neg (by decide), if_neg (by decide), if_neg (by decide), if_neg (by decide), if_neg (by decide), if_neg (by decide), if_neg (by decide), if_pos rfl,
      slotStep_none_ok (deFieldInt (serFieldV Bson.int64 order_offset)) order_offset _ _ (deFieldInt_ser order_offset)]
    rw [goSlotG, if_neg (by decide), if_neg (by decide), if_neg (by decide), if_neg (by decide), if_neg (by decide), if_neg (by decide), if_neg (by decide), if_neg (by decide), if_neg (by decide), if_neg (by decide), if_pos rfl,
      slotStep_none_ok (deBStr (Bson.str parent_reference)) parent_reference _ _ (show deBStr (Bson.str parent_reference) = Except.ok parent_reference from rfl)]
    rw [goSlotG, if_neg (by decide), if_neg (by decide), if_neg (by decide), if_neg (by decide), if_neg (by decide), if_neg (by decide), if_neg (by decide), if_neg (by decide), if_neg (by decide), if_neg (by decide), if_neg (by decide), if_pos rfl,
      slotStep_none_ok (deChildrenG (fun b2 => deSlotF f b2) (Bson.array (serSlotList children))) children _ _ hchildren]
    rw [goSlotG]
    rfl

mutual

theorem slotDepth_le_size : ∀ s : Slot, slotDepth s ≤ bsonSize (serSlot s) := by
  intro s
  cases s with
  | mk id components persistent_id name tag active position rotation scale order_offset
      parent_reference children =>
  rw [slotDepth, serSlot, bsonSize]
  rw [bsonEntriesSize, bsonEntriesSize, bsonEntriesSize, bsonEntriesSize, bsonEntriesSize,
    bsonEntriesSize, bsonEntriesSize, bsonEntriesSize, bsonEntriesSize, bsonEntriesSize,
    bsonEntriesSize, bsonEntriesSize, bsonEntriesSize]
  rw [show bsonSize (Bson.array (serSlotList children)) = 1 + bsonListSize (serSlotList children)
    from by rw [bsonSize]]
  have := slotListDepth_le_size children
  omega
termination_by s => sizeOf s

theorem slotListDepth_le_size : ∀ cs : List Slot, slotListDepth cs ≤ bsonListSize (serSlotList cs) := by
  intro cs
  match cs with
  | [] =>
    rw [slotListDepth, serSlotList, bsonListSize]
  | c :: rest =>
    rw [slotListDepth, serSlotList, bsonListSize]
    have h1 := slotDepth_le_size c
    have h2 := slotListDepth_le_size rest
    omega
termination_by cs => sizeOf cs

end

theorem slot_roundtrip (s : Slot) (h : SlotWf s) : deSlot (serSlot s) = .ok s :=
  deSlotF_roundtrip (bsonSize (serSlot s)) s (slotDepth_le_size s) h

/-! ## Manifest (backup.rs lines 584-590)

Manifest has Option members Object and Assets, which fall back to None
when absent, and a required TypeVersions dictionary of i64 values. -/

def keyObject : Str := "Object".data
def keyAssets : Str := "Assets".data
def keyTypeVersions : Str := "TypeVersions".data

structure Manifest where
  object : Option Slot
  assets : Option (List Component)
  type_versions : List (Str × Int)

def deIntEntries : List (Str × Bson) → Except String (List (Str × Int))
  | [] => .ok []
  | (k, v) :: rest =>
    match deBInt v with
    | .error e => .error e
    | .ok n =>
      match deIntEntries rest with
      | .error e => .error e
      | .ok ys => .ok ((k, n) :: ys)

def deStrIntMap : Bson → Except String (List (Str × Int))
  | .doc entries =>
    match deIntEntries entries with
    | .error e => .error e
    | .ok l => .ok (mapOfList l)
  | _ => .error "invalid type: expected document"

def deOptSlot : Bson → Except String (Option Slot) :=
  deBOpt deSlot

def deOptComps : Bson → Except String (Option (List Component)) :=
  deBOpt deCompList

def finManifest (objA : Option (Option Slot)) (assA : Option (Option (List Component)))
    (tvA : Option (List (Str × Int))) : Except String Manifest :=
  match tvA with
  | none => .error "missing field TypeVersions"
  | some tv => .ok ⟨objA.getD none, assA.getD none, tv⟩

def goManifest : List (Str × Bson) → Option (Option Slot) →
    Option (Option (List Component)) → Option (List (Str × Int)) → Except String Manifest
  | [], objA, assA, tvA => finManifest objA assA tvA
  | (k, v) :: rest, objA, assA, tvA =>
    if k = keyObject then
      slotStep objA (deOptSlot v) (fun o => goManifest rest (some o) assA tvA)
        "duplicate field Object"
    else if k = keyAssets then
      slotStep assA (deOptComps v) (fun a => goManifest rest objA (some a) tvA)
        "duplicate field Assets"
    else if k = keyTypeVersions then
      slotStep tvA (deStrIntMap v) (fun tv => goManifest rest objA assA (some tv))
        "duplicate field TypeVersions"
    else goManifest rest objA assA tvA

/-- Shallow embedding of the serde deserialization of Manifest from a BSON
document (the output of SZBson::open handed to bson::de::from_document). -/
def deManifest : Bson → Except String Manifest
  | .doc entries => goManifest entries none none none
  | _ => .error "invalid type: expected document"

def serOptSlot : Option Slot → Bson
  | none => .null
  | some s => serSlot s

def serOptComps : Option (List Component) → Bson
  | none => .null
  | some cs => serCompList cs

/-- Shallow embedding of the serde serialization of Manifest back to BSON,
following the derived Serialize implementations member for member. -/
def serManifest (m : Manifest) : Bson :=
  .doc [(keyObject, serOptSlot m.object), (keyAssets, serOptComps m.assets),
    (keyTypeVersions, .doc (m.type_versions.map (fun kv => (kv.1, Bson.int64 kv.2))))]

def ManifestWf (m : Manifest) : Prop :=
  (∀ s, m.object = some s → SlotWf s) ∧
    (∀ cs, m.assets = some cs → ∀ c ∈ cs, CompWf c) ∧
    sortedKeys m.type_versions

theorem deBOpt_inv (dT : Bson → Except String α) (b : Bson) (o : Option α)
    (h : deBOpt dT b = .ok o) : o = none ∨ ∃ x, o = some x ∧ ∃ v2, dT v2 = .ok x := by
  rw [deBOpt] at h
  by_cases hn : bIsNull b = true
  · rw [if_pos hn] at h
    exact Or.inl (Except.ok.inj h).symm
  · rw [if_neg hn] at h
    match hv : dT b with
    | .error e =>
      rw [hv] at h
      exact Except.noConfusion h
    | .ok x =>
      rw [hv] at h
      exact Or.inr ⟨x, (Except.ok.inj h).symm, b, hv⟩

theorem deStrIntMap_sorted (b : Bson) (tv : List (Str × Int))
    (h : deStrIntMap b = .ok tv) : sortedKeys tv := by
  match b with
  | .doc entries =>
    rw [deStrIntMap] at h
    match hl : deIntEntries entries with
    | .error e =>
      rw [hl] at h
      exact Except.noConfusion h
    | .ok l =>
      rw [hl] at h
      rw [← Except.ok.inj h]
      exact mapOfList_sorted l
  | .str s => exact Except.noConfusion h
  | .bool v => exact Except.noConfusion h
  | .int32 n => exact Except.noConfusion h
  | .int64 n => exact Except.noConfusion h
  | .double x => exact Except.noConfusion h
  | .null => exact Except.noConfusion h
  | .array xs => exact Except.noConfusion h

theorem goManifest_wf :
    ∀ (entries : List (Str × Bson)) (objA : Option (Option Slot))
      (assA : Option (Option (List Component))) (tvA : Option (List (Str × Int)))
      (m : Manifest),
      (∀ o s, objA = some o → o = some s → SlotWf s) →
      (∀ a cs, assA = some a → a = some cs → ∀ c ∈ cs, CompWf c) →
      (∀ tv, tvA = some tv → sortedKeys tv) →
      goManifest entries objA assA tvA = .ok m → ManifestWf m := by
  intro entries
  induction entries with
  | nil =>
    intro objA assA tvA m hobj hass htv hgo
    rw [goManifest] at hgo
    match tvA with
    | none => exact Except.noConfusion hgo
    | some tv =>
    have hm : (⟨objA.getD none, assA.getD none, tv⟩ : Manifest) = m := Except.ok.inj hgo
    rw [← hm]
    refine ⟨?_, ?_, htv tv rfl⟩
    · intro s hs
      match objA with
      | none => exact Option.noConfusion hs
      | some o => exact hobj o s rfl hs
    · intro cs hcs
      match assA with
      | none => exact Option.noConfusion hcs
      | some a => exact hass a cs rfl hcs
  | cons e rest ih =>
    intro objA assA tvA m hobj hass htv hgo
    obtain ⟨k, v⟩ := e
    rw [goManifest] at hgo
    by_cases h1 : k = keyObject
    · rw [if_pos h1] at hgo
      obtain ⟨-, x, hx, hcont⟩ := slotStep_inv _ _ _ _ _ hgo
      refine ih _ _ _ _ ?_ hass htv hcont
      intro o s ho hs
      rw [← Option.some_inj.mp ho] at hs
      rcases deBOpt_inv deSlot v x hx with hn | ⟨x2, hx2, v2, hv2⟩
      · rw [hn] at hs
        exact Option.noConfusion hs
      · rw [hx2] at hs
        rw [← Option.some_inj.mp hs]
        exact deSlot_wf v2 x2 hv2
    · rw [if_neg h1] at hgo
      by_cases h2 : k = keyAssets
      · rw [if_pos h2] at hgo
        obtain ⟨-, x, hx, hcont⟩ := slotStep_inv _ _ _ _ _ hgo
        refine ih _ _ _ _ hobj ?_ htv hcont
        intro a cs ha hcs
        rw [← Option.some_inj.mp ha] at hcs
        rcases deBOpt_inv deCompList v x hx with hn | ⟨x2, hx2, v2, hv2⟩
        · rw [hn] at hcs
          exact Option.noConfusion hcs
        · rw [hx2] at hcs
          rw [← Option.some_inj.mp hcs]
          exact deCompList_wf v2 x2 hv2
      · rw [if_neg h2] at hgo
        by_cases h3 : k = keyTypeVersions
        · rw [if_pos h3] at hgo
          obtain ⟨-, x, hx, hcont⟩ := slotStep_inv _ _ _ _ _ hgo
          refine ih _ _ _ _ hobj hass ?_ hcont
          intro tv htv2
          rw [← Option.some_inj.mp htv2]
          exact deStrIntMap_sorted v x hx
        · rw [if_neg h3] at hgo
          exact ih _ _ _ _ hobj hass htv hgo

theorem deManifest_wf (b : Bson) (m : Manifest) (h : deManifest b = .ok m) :
    ManifestWf m := by
  match b with
  | .doc entries =>
    rw [deManifest] at h
    exact goManifest_wf entries none none none m (fun o s ho => Option.noConfusion ho)
      (fun a cs ha => Option.noConfusion ha) (fun tv htv => Option.noConfusion htv) h
  | .str s => exact Except.noConfusion h
  | .bool v => exact Except.noConfusion h
  | .int32 n => exact Except.noConfusion h
  | .int64 n => exact Except.noConfusion h
  | .double x => exact Except.noConfusion h
  | .null => exact Except.noConfusion h
  | .array xs => exact Except.noConfusion h

theorem serSlot_not_null (s : Slot) : bIsNull (serSlot s) = false := by
  cases s
  rw [serSlot]
  rfl

theorem deOptSlot_ser (o : Option Slot) (h : ∀ s, o = some s → SlotWf s) :
    deOptSlot (serOptSlot o) = .ok o := by
  match o with
  | none => rfl
  | some s =>
    show deBOpt deSlot (serSlot s) = .ok (some s)
    rw [deBOpt, if_neg (by rw [serSlot_not_null s]; exact Bool.false_ne_true),
      slot_roundtrip s (h s rfl)]

theorem deOptComps_ser (o : Option (List Component)) (h : ∀ cs, o = some cs → ∀ c ∈ cs, CompWf c) :
    deOptComps (serOptComps o) = .ok o := by
  match o with
  | none => rfl
  | some cs =>
    show deBOpt deCompList (serCompList cs) = .ok (some cs)
    have hnn : ¬ bIsNull (serCompList cs) = true := by
      rw [show bIsNull (serCompList cs) = false from rfl]
      exact Bool.false_ne_true
    rw [deBOpt, if_neg hnn, deCompList_ser cs (h cs rfl)]

theorem deIntEntries_ser :
    ∀ tv : List (Str × Int),
      deIntEntries (tv.map (fun kv => (kv.1, Bson.int64 kv.2))) = .ok tv := by
  intro tv
  induction tv with
  | nil => rfl
  | cons kv rest ih =>
    obtain ⟨k, n⟩ := kv
    rw [List.map_cons, deIntEntries]
    rw [show deBInt (Bson.int64 n) = .ok n from rfl, ih]

theorem deStrIntMap_ser (tv : List (Str × Int)) (h : sortedKeys tv) :
    deStrIntMap (.doc (tv.map (fun kv => (kv.1, Bson.int64 kv.2)))) = .ok tv := by
  rw [deStrIntMap, deIntEntries_ser tv]
  show Except.ok (mapOfList tv) = Except.ok tv
  rw [mapOfList_sorted_id tv h]

theorem manifest_roundtrip (m : Manifest) (h : ManifestWf m) :
    deManifest (serManifest m) = .ok m := by
  obtain ⟨hobj, hass, htv⟩ := h
  have hstart : deManifest (serManifest m) = goManifest
      [(keyObject, serOptSlot m.object), (keyAssets, serOptComps m.assets),
        (keyTypeVersions, .doc (m.type_versions.map (fun kv => (kv.1, Bson.int64 kv.2))))]
      none none none := rfl
  rw [hstart]
  rw [goManifest, if_pos rfl, slotStep_none_ok (deOptSlot (serOptSlot m.object)) m.object _ _
    (deOptSlot_ser m.object hobj)]
  rw [goManifest, if_neg (by decide), if_pos rfl,
    slotStep_none_ok (deOptComps (serOptComps m.assets)) m.assets _ _
      (deOptComps_ser m.assets hass)]
  rw [goManifest, if_neg (by decide), if_neg (by decide), if_pos rfl,
    slotStep_none_ok (deStrIntMap (.doc (m.type_versions.map
      (fun kv => (kv.1, Bson.int64 kv.2))))) m.type_versions _ _
      (deStrIntMap_ser m.type_versions htv)]
  rw [goManifest]
  rfl

/-- C7: projection through the typed Manifest is a fixed point: if a BSON
document B projects successfully to a Manifest m, then serializing m back
to BSON and projecting again succeeds and returns exactly m. -/
theorem c7_manifest_fixed_point (B : Bson) (m : Manifest) (h : deManifest B = .ok m) :
    deManifest (serManifest m) = .ok m :=
  manifest_roundtrip m (deManifest_wf B m h)

theorem c7_manifest_fixed_point_witness :
    deManifest (Bson.doc [(keyTypeVersions, Bson.doc [])]) =
      .ok ⟨none, none, []⟩ ∧
      deManifest (serManifest ⟨none, none, []⟩) = .ok ⟨none, none, []⟩ :=
  ⟨rfl, c7_manifest_fixed_point (Bson.doc [(keyTypeVersions, Bson.doc [])]) ⟨none, none, []⟩ rfl⟩
